import Mathlib

/-!
Verification of the TicTacToe-AI repository (C++): a 3x3 tic-tac-toe game
with two automated opponents, minimax with alpha-beta pruning and Monte
Carlo Tree Search (MCTS).

Shallow embedding conventions:
* A board cell is one of the three characters ' ', 'X', 'O' that the C++
  code stores in `char board[3][3]`; we model it as the inductive type
  `Cell` (`e` for ' ', `x` for 'X' = PLAYER, `o` for 'O' = COMPUTER),
  with `Cell.char` recovering the stored character.
* A board is a function `Fin 3 → Fin 3 → Cell`; the in-place mutation
  `board[i][j] = c` becomes the functional update `setCell`.
* The C++ `for (i) for (j)` row-major scans become folds over the
  concrete list `allPos` of the nine coordinates in row-major order.
* Machine integers (`int`) carry no arithmetic here beyond `max`/`min`
  and the literals `INT_MIN`/`INT_MAX`, so they are modelled by `Int`
  with the explicit constants `intMin`/`intMax`.
* Recursions whose termination rests on the free-cell count decreasing
  (minimax, MCTS rollouts) are given an explicit fuel parameter; fuel
  `9` (the cell count) is always sufficient, which is proved where a
  claim needs it.
-/

/-- A board cell: `e` is the empty cell ' ', `x` is PLAYER = 'X',
`o` is COMPUTER = 'O'. -/
inductive Cell : Type where
  | e : Cell
  | x : Cell
  | o : Cell
deriving DecidableEq, Repr

/-- The character the C++ code stores for a cell. -/
def Cell.char : Cell → Char
  | Cell.e => ' '
  | Cell.x => 'X'
  | Cell.o => 'O'

/-- `char PLAYER = 'X'` from the source. -/
def PLAYER : Char := 'X'

/-- `char COMPUTER = 'O'` from the source. -/
def COMPUTER : Char := 'O'

/-- The 3x3 board `char board[3][3]`. -/
def Board : Type := Fin 3 → Fin 3 → Cell

/-- A cell coordinate. -/
def Pos : Type := Fin 3 × Fin 3

instance : DecidableEq Pos := instDecidableEqProd

/-- The assignment `board[i][j] = c`. -/
def setCell (b : Board) (p : Pos) (c : Cell) : Board :=
  fun i j => if i = p.1 ∧ j = p.2 then c else b i j

/-- The nine coordinates in the row-major order of the C++
`for (i) for (j)` loops. -/
def allPos : List Pos :=
  [(0, 0), (0, 1), (0, 2), (1, 0), (1, 1), (1, 2), (2, 0), (2, 1), (2, 2)]

/-- The free cells of a board, in row-major order: the list the loops of
`checkFreeSpaces` / `simulateGame` / the `MCTSNode` constructor build. -/
def freeCells (b : Board) : List Pos :=
  allPos.filter (fun p => b p.1 p.2 = Cell.e)

/-- Number of empty cells (`checkFreeSpaces` / the count at the end of
`checkWinner`). -/
def freeCount (b : Board) : Nat :=
  (freeCells b).length

/-- `checkWinner` from the source, with the two 3-iteration loops over
rows and columns unrolled: return the mark of the first completed line
found (rows, then columns, then the two diagonals), else 'D' when no
cell is free, else ' '. -/
def checkWinner (b : Board) : Char :=
  if b 0 0 = b 0 1 ∧ b 0 0 = b 0 2 ∧ b 0 0 ≠ Cell.e then (b 0 0).char
  else if b 1 0 = b 1 1 ∧ b 1 0 = b 1 2 ∧ b 1 0 ≠ Cell.e then (b 1 0).char
  else if b 2 0 = b 2 1 ∧ b 2 0 = b 2 2 ∧ b 2 0 ≠ Cell.e then (b 2 0).char
  else if b 0 0 = b 1 0 ∧ b 0 0 = b 2 0 ∧ b 0 0 ≠ Cell.e then (b 0 0).char
  else if b 0 1 = b 1 1 ∧ b 0 1 = b 2 1 ∧ b 0 1 ≠ Cell.e then (b 0 1).char
  else if b 0 2 = b 1 2 ∧ b 0 2 = b 2 2 ∧ b 0 2 ≠ Cell.e then (b 0 2).char
  else if b 0 0 = b 1 1 ∧ b 0 0 = b 2 2 ∧ b 0 0 ≠ Cell.e then (b 0 0).char
  else if b 0 2 = b 1 1 ∧ b 0 2 = b 2 0 ∧ b 0 2 ≠ Cell.e then (b 0 2).char
  else if freeCount b = 0 then 'D'
  else ' '

/-- Specification-side predicate (from the spec's words, for comparison
with `checkWinner`): side `c` has three identical non-empty marks in one
of the 3 rows, 3 columns, or 2 diagonals. -/
def hasLine (b : Board) (c : Cell) : Prop :=
  c ≠ Cell.e ∧
    ((b 0 0 = c ∧ b 0 1 = c ∧ b 0 2 = c) ∨
     (b 1 0 = c ∧ b 1 1 = c ∧ b 1 2 = c) ∨
     (b 2 0 = c ∧ b 2 1 = c ∧ b 2 2 = c) ∨
     (b 0 0 = c ∧ b 1 0 = c ∧ b 2 0 = c) ∨
     (b 0 1 = c ∧ b 1 1 = c ∧ b 2 1 = c) ∨
     (b 0 2 = c ∧ b 1 2 = c ∧ b 2 2 = c) ∨
     (b 0 0 = c ∧ b 1 1 = c ∧ b 2 2 = c) ∨
     (b 0 2 = c ∧ b 1 1 = c ∧ b 2 0 = c))

instance (b : Board) (c : Cell) : Decidable (hasLine b c) := by
  unfold hasLine; infer_instance

/-- A board built from a list of rows (helper for concrete test boards;
missing entries default to empty). -/
def boardOfRows (rows : List (List Cell)) : Board :=
  fun i j => ((rows.getD i []).getD j Cell.e)

/-- The empty starting board. -/
def emptyBoard : Board := fun _ _ => Cell.e

lemma setCell_same (b : Board) (p : Pos) (c : Cell) :
    setCell b p c p.1 p.2 = c := by
  simp [setCell]

lemma setCell_other (b : Board) (p q : Pos) (c : Cell) (h : q ≠ p) :
    setCell b p c q.1 q.2 = b q.1 q.2 := by
  have : ¬(q.1 = p.1 ∧ q.2 = p.2) := by
    intro hc
    exact h (Prod.ext hc.1 hc.2)
  simp [setCell, this]

lemma mem_allPos (p : Pos) : p ∈ allPos := by
  rcases p with ⟨i, j⟩
  fin_cases i <;> fin_cases j <;> simp [allPos]

lemma allPos_nodup : allPos.Nodup := by decide

lemma allPos_length : allPos.length = 9 := by rfl

lemma freeCount_le_nine (b : Board) : freeCount b ≤ 9 := by
  have h := List.length_filter_le (fun p => decide (b p.1 p.2 = Cell.e)) allPos
  simpa [freeCount, freeCells, allPos_length] using h

lemma filter_setCell_length (b : Board) (p : Pos) (c : Cell)
    (hfree : b p.1 p.2 = Cell.e) (hc : c ≠ Cell.e) :
    ∀ l : List Pos, l.Nodup → p ∈ l →
      (l.filter (fun q => setCell b p c q.1 q.2 = Cell.e)).length + 1 =
      (l.filter (fun q => b q.1 q.2 = Cell.e)).length := by
  intro l
  induction l with
  | nil => intro _ h; cases h
  | cons q t ih =>
      intro hnd hmem
      rcases List.nodup_cons.mp hnd with ⟨hqt, hndt⟩
      by_cases hqp : q = p
      · subst hqp
        have h1 : setCell b q c q.1 q.2 = c := setCell_same b q c
        have hfilter :
            t.filter (fun r => setCell b q c r.1 r.2 = Cell.e) =
            t.filter (fun r => b r.1 r.2 = Cell.e) := by
          apply List.filter_congr
          intro r hr
          have hrq : r ≠ q := fun h => hqt (h ▸ hr)
          simp [setCell_other b q r c hrq]
        simp [List.filter_cons, h1, hc, hfree, hfilter]
      · have hpt : p ∈ t := by
          rcases List.mem_cons.mp hmem with h | h
          · exact absurd h (fun h2 => hqp h2.symm)
          · exact h
        have hq : setCell b p c q.1 q.2 = b q.1 q.2 := setCell_other b p q c hqp
        have hrec := ih hndt hpt
        by_cases hqe : b q.1 q.2 = Cell.e
        · simp [List.filter_cons, hq, hqe]
          omega
        · simp [List.filter_cons, hq, hqe]
          omega

lemma freeCount_setCell (b : Board) (p : Pos) (c : Cell)
    (hfree : b p.1 p.2 = Cell.e) (hc : c ≠ Cell.e) :
    freeCount (setCell b p c) + 1 = freeCount b := by
  have := filter_setCell_length b p c hfree hc allPos allPos_nodup (mem_allPos p)
  simpa [freeCount, freeCells, setCell] using this

lemma freeCount_pos_iff (b : Board) :
    0 < freeCount b ↔ ∃ p : Pos, b p.1 p.2 = Cell.e := by
  constructor
  · intro h
    rcases List.exists_mem_of_length_pos h with ⟨p, hp⟩
    rcases List.mem_filter.mp hp with ⟨_, hfree⟩
    exact ⟨p, of_decide_eq_true hfree⟩
  · rintro ⟨p, hp⟩
    have : p ∈ freeCells b :=
      List.mem_filter.mpr ⟨mem_allPos p, decide_eq_true hp⟩
    exact List.length_pos.mpr (fun h => by simp [h] at this)


lemma Cell.not_e_cases {c : Cell} (h : c ≠ Cell.e) : c = Cell.x ∨ c = Cell.o := by
  cases c
  · exact absurd rfl h
  · exact Or.inl rfl
  · exact Or.inr rfl

lemma char_eq_X {c : Cell} : c.char = 'X' ↔ c = Cell.x := by
  cases c <;> simp [Cell.char]

lemma char_eq_O {c : Cell} : c.char = 'O' ↔ c = Cell.o := by
  cases c <;> simp [Cell.char]

/-- The eight early-return conditions of `checkWinner`, in scan order. -/
def winConds (b : Board) : Prop :=
  (b 0 0 = b 0 1 ∧ b 0 0 = b 0 2 ∧ b 0 0 ≠ Cell.e) ∨
  (b 1 0 = b 1 1 ∧ b 1 0 = b 1 2 ∧ b 1 0 ≠ Cell.e) ∨
  (b 2 0 = b 2 1 ∧ b 2 0 = b 2 2 ∧ b 2 0 ≠ Cell.e) ∨
  (b 0 0 = b 1 0 ∧ b 0 0 = b 2 0 ∧ b 0 0 ≠ Cell.e) ∨
  (b 0 1 = b 1 1 ∧ b 0 1 = b 2 1 ∧ b 0 1 ≠ Cell.e) ∨
  (b 0 2 = b 1 2 ∧ b 0 2 = b 2 2 ∧ b 0 2 ≠ Cell.e) ∨
  (b 0 0 = b 1 1 ∧ b 0 0 = b 2 2 ∧ b 0 0 ≠ Cell.e) ∨
  (b 0 2 = b 1 1 ∧ b 0 2 = b 2 0 ∧ b 0 2 ≠ Cell.e)

lemma hasLine_winConds {b : Board} {c : Cell} (h : hasLine b c) : winConds b := by
  obtain ⟨hne, hd⟩ := h
  rcases hd with h|h|h|h|h|h|h|h <;> obtain ⟨a1, a2, a3⟩ := h
  · exact Or.inl ⟨a1.trans a2.symm, a1.trans a3.symm, a1.symm ▸ hne⟩
  · exact Or.inr (Or.inl ⟨a1.trans a2.symm, a1.trans a3.symm, a1.symm ▸ hne⟩)
  · exact Or.inr (Or.inr (Or.inl ⟨a1.trans a2.symm, a1.trans a3.symm,
      a1.symm ▸ hne⟩))
  · exact Or.inr (Or.inr (Or.inr (Or.inl ⟨a1.trans a2.symm, a1.trans a3.symm,
      a1.symm ▸ hne⟩)))
  · exact Or.inr (Or.inr (Or.inr (Or.inr (Or.inl ⟨a1.trans a2.symm,
      a1.trans a3.symm, a1.symm ▸ hne⟩))))
  · exact Or.inr (Or.inr (Or.inr (Or.inr (Or.inr (Or.inl ⟨a1.trans a2.symm,
      a1.trans a3.symm, a1.symm ▸ hne⟩)))))
  · exact Or.inr (Or.inr (Or.inr (Or.inr (Or.inr (Or.inr (Or.inl
      ⟨a1.trans a2.symm, a1.trans a3.symm, a1.symm ▸ hne⟩))))))
  · exact Or.inr (Or.inr (Or.inr (Or.inr (Or.inr (Or.inr (Or.inr
      ⟨a1.trans a2.symm, a1.trans a3.symm, a1.symm ▸ hne⟩))))))

lemma winConds_hasLine {b : Board} (h : winConds b) :
    hasLine b Cell.x ∨ hasLine b Cell.o := by
  rcases h with h|h|h|h|h|h|h|h <;> obtain ⟨a1, a2, a3⟩ := h <;>
    rcases Cell.not_e_cases a3 with hv | hv
  · exact Or.inl ⟨by decide, Or.inl ⟨hv, a1.symm.trans hv, a2.symm.trans hv⟩⟩
  · exact Or.inr ⟨by decide, Or.inl ⟨hv, a1.symm.trans hv, a2.symm.trans hv⟩⟩
  · exact Or.inl ⟨by decide, Or.inr (Or.inl ⟨hv, a1.symm.trans hv,
      a2.symm.trans hv⟩)⟩
  · exact Or.inr ⟨by decide, Or.inr (Or.inl ⟨hv, a1.symm.trans hv,
      a2.symm.trans hv⟩)⟩
  · exact Or.inl ⟨by decide, Or.inr (Or.inr (Or.inl ⟨hv, a1.symm.trans hv,
      a2.symm.trans hv⟩))⟩
  · exact Or.inr ⟨by decide, Or.inr (Or.inr (Or.inl ⟨hv, a1.symm.trans hv,
      a2.symm.trans hv⟩))⟩
  · exact Or.inl ⟨by decide, Or.inr (Or.inr (Or.inr (Or.inl ⟨hv,
      a1.symm.trans hv, a2.symm.trans hv⟩)))⟩
  · exact Or.inr ⟨by decide, Or.inr (Or.inr (Or.inr (Or.inl ⟨hv,
      a1.symm.trans hv, a2.symm.trans hv⟩)))⟩
  · exact Or.inl ⟨by decide, Or.inr (Or.inr (Or.inr (Or.inr (Or.inl ⟨hv,
      a1.symm.trans hv, a2.symm.trans hv⟩))))⟩
  · exact Or.inr ⟨by decide, Or.inr (Or.inr (Or.inr (Or.inr (Or.inl ⟨hv,
      a1.symm.trans hv, a2.symm.trans hv⟩))))⟩
  · exact Or.inl ⟨by decide, Or.inr (Or.inr (Or.inr (Or.inr (Or.inr (Or.inl
      ⟨hv, a1.symm.trans hv, a2.symm.trans hv⟩)))))⟩
  · exact Or.inr ⟨by decide, Or.inr (Or.inr (Or.inr (Or.inr (Or.inr (Or.inl
      ⟨hv, a1.symm.trans hv, a2.symm.trans hv⟩)))))⟩
  · exact Or.inl ⟨by decide, Or.inr (Or.inr (Or.inr (Or.inr (Or.inr (Or.inr
      (Or.inl ⟨hv, a1.symm.trans hv, a2.symm.trans hv⟩))))))⟩
  · exact Or.inr ⟨by decide, Or.inr (Or.inr (Or.inr (Or.inr (Or.inr (Or.inr
      (Or.inl ⟨hv, a1.symm.trans hv, a2.symm.trans hv⟩))))))⟩
  · exact Or.inl ⟨by decide, Or.inr (Or.inr (Or.inr (Or.inr (Or.inr (Or.inr
      (Or.inr ⟨hv, a1.symm.trans hv, a2.symm.trans hv⟩))))))⟩
  · exact Or.inr ⟨by decide, Or.inr (Or.inr (Or.inr (Or.inr (Or.inr (Or.inr
      (Or.inr ⟨hv, a1.symm.trans hv, a2.symm.trans hv⟩))))))⟩

lemma checkWinner_of_winConds {b : Board} (h : winConds b) :
    checkWinner b = 'X' ∨ checkWinner b = 'O' := by
  unfold checkWinner
  split_ifs with h1 h2 h3 h4 h5 h6 h7 h8 h9
  · rcases Cell.not_e_cases h1.2.2 with hv | hv
    · exact Or.inl (by rw [hv]; rfl)
    · exact Or.inr (by rw [hv]; rfl)
  · rcases Cell.not_e_cases h2.2.2 with hv | hv
    · exact Or.inl (by rw [hv]; rfl)
    · exact Or.inr (by rw [hv]; rfl)
  · rcases Cell.not_e_cases h3.2.2 with hv | hv
    · exact Or.inl (by rw [hv]; rfl)
    · exact Or.inr (by rw [hv]; rfl)
  · rcases Cell.not_e_cases h4.2.2 with hv | hv
    · exact Or.inl (by rw [hv]; rfl)
    · exact Or.inr (by rw [hv]; rfl)
  · rcases Cell.not_e_cases h5.2.2 with hv | hv
    · exact Or.inl (by rw [hv]; rfl)
    · exact Or.inr (by rw [hv]; rfl)
  · rcases Cell.not_e_cases h6.2.2 with hv | hv
    · exact Or.inl (by rw [hv]; rfl)
    · exact Or.inr (by rw [hv]; rfl)
  · rcases Cell.not_e_cases h7.2.2 with hv | hv
    · exact Or.inl (by rw [hv]; rfl)
    · exact Or.inr (by rw [hv]; rfl)
  · rcases Cell.not_e_cases h8.2.2 with hv | hv
    · exact Or.inl (by rw [hv]; rfl)
    · exact Or.inr (by rw [hv]; rfl)
  · rcases h with h|h|h|h|h|h|h|h
    exacts [absurd h h1, absurd h h2, absurd h h3, absurd h h4, absurd h h5,
      absurd h h6, absurd h h7, absurd h h8]
  · rcases h with h|h|h|h|h|h|h|h
    exacts [absurd h h1, absurd h h2, absurd h h3, absurd h h4, absurd h h5,
      absurd h h6, absurd h h7, absurd h h8]

lemma hasLine_x_of_checkWinner {b : Board} (h : checkWinner b = 'X') :
    hasLine b Cell.x := by
  unfold checkWinner at h
  split_ifs at h with h1 h2 h3 h4 h5 h6 h7 h8 h9
  · obtain ⟨e1, e2, hne⟩ := h1
    have hv := char_eq_X.mp h
    exact ⟨by decide, Or.inl ⟨hv, e1.symm.trans hv, e2.symm.trans hv⟩⟩
  · obtain ⟨e1, e2, hne⟩ := h2
    have hv := char_eq_X.mp h
    exact ⟨by decide, Or.inr (Or.inl ⟨hv, e1.symm.trans hv, e2.symm.trans hv⟩)⟩
  · obtain ⟨e1, e2, hne⟩ := h3
    have hv := char_eq_X.mp h
    exact ⟨by decide, Or.inr (Or.inr (Or.inl ⟨hv, e1.symm.trans hv,
      e2.symm.trans hv⟩))⟩
  · obtain ⟨e1, e2, hne⟩ := h4
    have hv := char_eq_X.mp h
    exact ⟨by decide, Or.inr (Or.inr (Or.inr (Or.inl ⟨hv, e1.symm.trans hv,
      e2.symm.trans hv⟩)))⟩
  · obtain ⟨e1, e2, hne⟩ := h5
    have hv := char_eq_X.mp h
    exact ⟨by decide, Or.inr (Or.inr (Or.inr (Or.inr (Or.inl ⟨hv,
      e1.symm.trans hv, e2.symm.trans hv⟩))))⟩
  · obtain ⟨e1, e2, hne⟩ := h6
    have hv := char_eq_X.mp h
    exact ⟨by decide, Or.inr (Or.inr (Or.inr (Or.inr (Or.inr (Or.inl ⟨hv,
      e1.symm.trans hv, e2.symm.trans hv⟩)))))⟩
  · obtain ⟨e1, e2, hne⟩ := h7
    have hv := char_eq_X.mp h
    exact ⟨by decide, Or.inr (Or.inr (Or.inr (Or.inr (Or.inr (Or.inr (Or.inl
      ⟨hv, e1.symm.trans hv, e2.symm.trans hv⟩))))))⟩
  · obtain ⟨e1, e2, hne⟩ := h8
    have hv := char_eq_X.mp h
    exact ⟨by decide, Or.inr (Or.inr (Or.inr (Or.inr (Or.inr (Or.inr (Or.inr
      ⟨hv, e1.symm.trans hv, e2.symm.trans hv⟩))))))⟩
  · exact absurd h (by decide)
  · exact absurd h (by decide)

lemma hasLine_o_of_checkWinner {b : Board} (h : checkWinner b = 'O') :
    hasLine b Cell.o := by
  unfold checkWinner at h
  split_ifs at h with h1 h2 h3 h4 h5 h6 h7 h8 h9
  · obtain ⟨e1, e2, hne⟩ := h1
    have hv := char_eq_O.mp h
    exact ⟨by decide, Or.inl ⟨hv, e1.symm.trans hv, e2.symm.trans hv⟩⟩
  · obtain ⟨e1, e2, hne⟩ := h2
    have hv := char_eq_O.mp h
    exact ⟨by decide, Or.inr (Or.inl ⟨hv, e1.symm.trans hv, e2.symm.trans hv⟩)⟩
  · obtain ⟨e1, e2, hne⟩ := h3
    have hv := char_eq_O.mp h
    exact ⟨by decide, Or.inr (Or.inr (Or.inl ⟨hv, e1.symm.trans hv,
      e2.symm.trans hv⟩))⟩
  · obtain ⟨e1, e2, hne⟩ := h4
    have hv := char_eq_O.mp h
    exact ⟨by decide, Or.inr (Or.inr (Or.inr (Or.inl ⟨hv, e1.symm.trans hv,
      e2.symm.trans hv⟩)))⟩
  · obtain ⟨e1, e2, hne⟩ := h5
    have hv := char_eq_O.mp h
    exact ⟨by decide, Or.inr (Or.inr (Or.inr (Or.inr (Or.inl ⟨hv,
      e1.symm.trans hv, e2.symm.trans hv⟩))))⟩
  · obtain ⟨e1, e2, hne⟩ := h6
    have hv := char_eq_O.mp h
    exact ⟨by decide, Or.inr (Or.inr (Or.inr (Or.inr (Or.inr (Or.inl ⟨hv,
      e1.symm.trans hv, e2.symm.trans hv⟩)))))⟩
  · obtain ⟨e1, e2, hne⟩ := h7
    have hv := char_eq_O.mp h
    exact ⟨by decide, Or.inr (Or.inr (Or.inr (Or.inr (Or.inr (Or.inr (Or.inl
      ⟨hv, e1.symm.trans hv, e2.symm.trans hv⟩))))))⟩
  · obtain ⟨e1, e2, hne⟩ := h8
    have hv := char_eq_O.mp h
    exact ⟨by decide, Or.inr (Or.inr (Or.inr (Or.inr (Or.inr (Or.inr (Or.inr
      ⟨hv, e1.symm.trans hv, e2.symm.trans hv⟩))))))⟩
  · exact absurd h (by decide)
  · exact absurd h (by decide)

lemma checkWinner_no_line {b : Board} (hx : ¬ hasLine b Cell.x)
    (ho : ¬ hasLine b Cell.o) :
    checkWinner b = if freeCount b = 0 then 'D' else ' ' := by
  have hw : ¬ winConds b := by
    intro h
    rcases winConds_hasLine h with h' | h'
    · exact hx h'
    · exact ho h'
  have n1 : ¬ (b 0 0 = b 0 1 ∧ b 0 0 = b 0 2 ∧ b 0 0 ≠ Cell.e) :=
    fun h => hw (Or.inl h)
  have n2 : ¬ (b 1 0 = b 1 1 ∧ b 1 0 = b 1 2 ∧ b 1 0 ≠ Cell.e) :=
    fun h => hw (Or.inr (Or.inl h))
  have n3 : ¬ (b 2 0 = b 2 1 ∧ b 2 0 = b 2 2 ∧ b 2 0 ≠ Cell.e) :=
    fun h => hw (Or.inr (Or.inr (Or.inl h)))
  have n4 : ¬ (b 0 0 = b 1 0 ∧ b 0 0 = b 2 0 ∧ b 0 0 ≠ Cell.e) :=
    fun h => hw (Or.inr (Or.inr (Or.inr (Or.inl h))))
  have n5 : ¬ (b 0 1 = b 1 1 ∧ b 0 1 = b 2 1 ∧ b 0 1 ≠ Cell.e) :=
    fun h => hw (Or.inr (Or.inr (Or.inr (Or.inr (Or.inl h)))))
  have n6 : ¬ (b 0 2 = b 1 2 ∧ b 0 2 = b 2 2 ∧ b 0 2 ≠ Cell.e) :=
    fun h => hw (Or.inr (Or.inr (Or.inr (Or.inr (Or.inr (Or.inl h))))))
  have n7 : ¬ (b 0 0 = b 1 1 ∧ b 0 0 = b 2 2 ∧ b 0 0 ≠ Cell.e) :=
    fun h => hw (Or.inr (Or.inr (Or.inr (Or.inr (Or.inr (Or.inr (Or.inl h)))))))
  have n8 : ¬ (b 0 2 = b 1 1 ∧ b 0 2 = b 2 0 ∧ b 0 2 ≠ Cell.e) :=
    fun h => hw (Or.inr (Or.inr (Or.inr (Or.inr (Or.inr (Or.inr (Or.inr h)))))))
  unfold checkWinner
  rw [if_neg n1, if_neg n2, if_neg n3, if_neg n4, if_neg n5, if_neg n6,
    if_neg n7, if_neg n8]

lemma checkWinner_mem (b : Board) :
    checkWinner b = ' ' ∨ checkWinner b = 'X' ∨ checkWinner b = 'O' ∨
      checkWinner b = 'D' := by
  by_cases hw : winConds b
  · rcases checkWinner_of_winConds hw with h | h
    · exact Or.inr (Or.inl h)
    · exact Or.inr (Or.inr (Or.inl h))
  · have hx : ¬ hasLine b Cell.x := fun h => hw (hasLine_winConds h)
    have ho : ¬ hasLine b Cell.o := fun h => hw (hasLine_winConds h)
    rw [checkWinner_no_line hx ho]
    by_cases hf : freeCount b = 0
    · rw [if_pos hf]
      exact Or.inr (Or.inr (Or.inr rfl))
    · rw [if_neg hf]
      exact Or.inl rfl

lemma checkWinner_space_iff (b : Board) :
    checkWinner b = ' ' ↔
      ¬ hasLine b Cell.x ∧ ¬ hasLine b Cell.o ∧ freeCount b ≠ 0 := by
  constructor
  · intro h
    have hx : ¬ hasLine b Cell.x := by
      intro hl
      rcases checkWinner_of_winConds (hasLine_winConds hl) with h' | h' <;>
        rw [h] at h' <;> exact absurd h' (by decide)
    have ho : ¬ hasLine b Cell.o := by
      intro hl
      rcases checkWinner_of_winConds (hasLine_winConds hl) with h' | h' <;>
        rw [h] at h' <;> exact absurd h' (by decide)
    refine ⟨hx, ho, ?_⟩
    intro hf
    rw [checkWinner_no_line hx ho, if_pos hf] at h
    exact absurd h (by decide)
  · rintro ⟨hx, ho, hf⟩
    rw [checkWinner_no_line hx ho, if_neg hf]

lemma checkWinner_draw_iff (b : Board) :
    checkWinner b = 'D' ↔
      ¬ hasLine b Cell.x ∧ ¬ hasLine b Cell.o ∧ freeCount b = 0 := by
  constructor
  · intro h
    have hx : ¬ hasLine b Cell.x := by
      intro hl
      rcases checkWinner_of_winConds (hasLine_winConds hl) with h' | h' <;>
        rw [h] at h' <;> exact absurd h' (by decide)
    have ho : ¬ hasLine b Cell.o := by
      intro hl
      rcases checkWinner_of_winConds (hasLine_winConds hl) with h' | h' <;>
        rw [h] at h' <;> exact absurd h' (by decide)
    refine ⟨hx, ho, ?_⟩
    by_contra hf
    rw [checkWinner_no_line hx ho, if_neg hf] at h
    exact absurd h (by decide)
  · rintro ⟨hx, ho, hf⟩
    rw [checkWinner_no_line hx ho, if_pos hf]

lemma checkWinner_space_freeCount {b : Board} (h : checkWinner b = ' ') :
    freeCount b ≠ 0 :=
  ((checkWinner_space_iff b).mp h).2.2

lemma setCell_eq_of_ne (b : Board) (p : Pos) (t c : Cell) (hc : t ≠ c)
    {i : Fin 3} {j : Fin 3} (h : setCell b p t i j = c) : b i j = c := by
  by_cases hp : i = p.1 ∧ j = p.2
  · rw [setCell, if_pos hp] at h
    exact absurd h hc
  · rwa [setCell, if_neg hp] at h

lemma hasLine_setCell {b : Board} {p : Pos} {t c : Cell} (hc : t ≠ c)
    (h : hasLine (setCell b p t) c) : hasLine b c := by
  obtain ⟨hne, hd⟩ := h
  refine ⟨hne, ?_⟩
  rcases hd with h|h|h|h|h|h|h|h <;> obtain ⟨q1, q2, q3⟩ := h
  · exact Or.inl ⟨setCell_eq_of_ne b p t c hc q1,
      setCell_eq_of_ne b p t c hc q2, setCell_eq_of_ne b p t c hc q3⟩
  · exact Or.inr (Or.inl ⟨setCell_eq_of_ne b p t c hc q1,
      setCell_eq_of_ne b p t c hc q2, setCell_eq_of_ne b p t c hc q3⟩)
  · exact Or.inr (Or.inr (Or.inl ⟨setCell_eq_of_ne b p t c hc q1,
      setCell_eq_of_ne b p t c hc q2, setCell_eq_of_ne b p t c hc q3⟩))
  · exact Or.inr (Or.inr (Or.inr (Or.inl ⟨setCell_eq_of_ne b p t c hc q1,
      setCell_eq_of_ne b p t c hc q2, setCell_eq_of_ne b p t c hc q3⟩)))
  · exact Or.inr (Or.inr (Or.inr (Or.inr (Or.inl
      ⟨setCell_eq_of_ne b p t c hc q1, setCell_eq_of_ne b p t c hc q2,
        setCell_eq_of_ne b p t c hc q3⟩))))
  · exact Or.inr (Or.inr (Or.inr (Or.inr (Or.inr (Or.inl
      ⟨setCell_eq_of_ne b p t c hc q1, setCell_eq_of_ne b p t c hc q2,
        setCell_eq_of_ne b p t c hc q3⟩)))))
  · exact Or.inr (Or.inr (Or.inr (Or.inr (Or.inr (Or.inr (Or.inl
      ⟨setCell_eq_of_ne b p t c hc q1, setCell_eq_of_ne b p t c hc q2,
        setCell_eq_of_ne b p t c hc q3⟩))))))
  · exact Or.inr (Or.inr (Or.inr (Or.inr (Or.inr (Or.inr (Or.inr
      ⟨setCell_eq_of_ne b p t c hc q1, setCell_eq_of_ne b p t c hc q2,
        setCell_eq_of_ne b p t c hc q3⟩))))))

/-- `(currentPlayer == PLAYER) ? COMPUTER : PLAYER` — the turn flip used
by `main`, `expandNode` and the rollouts. -/
def flipSide (c : Cell) : Cell :=
  if c = Cell.x then Cell.o else Cell.x

/-- Boards reachable in actual play, as produced by the game loop of
`main`: starting from the empty board with X ('X' = PLAYER) to move,
marks are placed alternately onto empty cells, and a move is only made
while `checkWinner` still reports the game as ongoing (' '). The second
component is the side to move. -/
inductive Reach : Board → Cell → Prop where
  | init : Reach emptyBoard Cell.x
  | step : ∀ (b : Board) (t : Cell) (p : Pos), Reach b t →
      checkWinner b = ' ' → b p.1 p.2 = Cell.e →
      Reach (setCell b p t) (flipSide t)

lemma Reach_side {b : Board} {t : Cell} (h : Reach b t) :
    t = Cell.x ∨ t = Cell.o := by
  induction h with
  | init => exact Or.inl rfl
  | step b t p _ _ _ _ =>
      by_cases hx : t = Cell.x
      · exact Or.inr (by rw [flipSide, if_pos hx])
      · exact Or.inl (by rw [flipSide, if_neg hx])

lemma Reach_no_double_line {b : Board} {t : Cell} (h : Reach b t) :
    ¬ (hasLine b Cell.x ∧ hasLine b Cell.o) := by
  induction h with
  | init =>
      rintro ⟨hx, -⟩
      exact absurd hx (by decide)
  | step b t p hr hongoing hfree ih =>
      rintro ⟨hlx, hlo⟩
      rcases Reach_side hr with ht | ht
      · have hto : t ≠ Cell.o := by rw [ht]; decide
        have : hasLine b Cell.o := hasLine_setCell hto hlo
        have := checkWinner_of_winConds (hasLine_winConds this)
        rcases this with h' | h' <;> rw [hongoing] at h' <;>
          exact absurd h' (by decide)
      · have htx : t ≠ Cell.x := by rw [ht]; decide
        have : hasLine b Cell.x := hasLine_setCell htx hlx
        have := checkWinner_of_winConds (hasLine_winConds this)
        rcases this with h' | h' <;> rw [hongoing] at h' <;>
          exact absurd h' (by decide)

/-- C8: for every board reachable in actual play (marks placed alternately
starting with X, each move onto an empty cell, play stopping at the first
win), the two sides never both have a completed three-in-a-row line, and
`checkWinner` returns exactly one of the four outcomes
Ongoing ' ', X wins 'X', O wins 'O', Draw 'D'. -/
theorem reachable_no_double_line_and_outcome {b : Board} {t : Cell}
    (h : Reach b t) :
    ¬ (hasLine b Cell.x ∧ hasLine b Cell.o) ∧
      (checkWinner b = ' ' ∨ checkWinner b = 'X' ∨ checkWinner b = 'O' ∨
        checkWinner b = 'D') :=
  ⟨Reach_no_double_line h, checkWinner_mem b⟩

/-- Witness for C8 at the empty starting board. -/
theorem reachable_no_double_line_and_outcome_witness :
    ¬ (hasLine emptyBoard Cell.x ∧ hasLine emptyBoard Cell.o) ∧
      (checkWinner emptyBoard = ' ' ∨ checkWinner emptyBoard = 'X' ∨
        checkWinner emptyBoard = 'O' ∨ checkWinner emptyBoard = 'D') :=
  reachable_no_double_line_and_outcome Reach.init

/-- A board on which both sides have completed lines (unreachable in play,
but a legal value of the board data type): X fills row 0, O fills row 1. -/
def doubleLineBoard : Board :=
  boardOfRows [[Cell.x, Cell.x, Cell.x], [Cell.o, Cell.o, Cell.o],
    [Cell.e, Cell.e, Cell.e]]

/-- Counterexample to C4 as stated: on `doubleLineBoard`, O has a completed
line but `checkWinner` returns 'X' (the row scan finds X's line first), so
the per-side biconditional "returns the side character exactly when that
side has a line" fails for O. -/
theorem checkWinner_per_side_iff_fails :
    ¬ ((checkWinner doubleLineBoard = 'X' ↔ hasLine doubleLineBoard Cell.x) ∧
       (checkWinner doubleLineBoard = 'O' ↔ hasLine doubleLineBoard Cell.o) ∧
       (checkWinner doubleLineBoard = 'D' ↔
         (¬ hasLine doubleLineBoard Cell.x ∧ ¬ hasLine doubleLineBoard Cell.o ∧
           freeCount doubleLineBoard = 0)) ∧
       (checkWinner doubleLineBoard = ' ' ↔
         (¬ hasLine doubleLineBoard Cell.x ∧ ¬ hasLine doubleLineBoard Cell.o ∧
           freeCount doubleLineBoard ≠ 0))) := by
  decide

/-- C4 (amended): for every board on which the two sides do not both have
completed lines — the only case the counterexample `doubleLineBoard`
excludes — `checkWinner` returns the side character exactly when that side
has three identical non-empty marks in a row, column or diagonal, returns
'D' exactly when no line exists and no cell is free, and returns ' '
otherwise. -/
theorem checkWinner_matches_line_spec (b : Board)
    (hnd : ¬ (hasLine b Cell.x ∧ hasLine b Cell.o)) :
    (checkWinner b = 'X' ↔ hasLine b Cell.x) ∧
    (checkWinner b = 'O' ↔ hasLine b Cell.o) ∧
    (checkWinner b = 'D' ↔
      (¬ hasLine b Cell.x ∧ ¬ hasLine b Cell.o ∧ freeCount b = 0)) ∧
    (checkWinner b = ' ' ↔
      (¬ hasLine b Cell.x ∧ ¬ hasLine b Cell.o ∧ freeCount b ≠ 0)) := by
  refine ⟨⟨fun h => hasLine_x_of_checkWinner h, fun hl => ?_⟩,
    ⟨fun h => hasLine_o_of_checkWinner h, fun hl => ?_⟩,
    checkWinner_draw_iff b, checkWinner_space_iff b⟩
  · rcases checkWinner_of_winConds (hasLine_winConds hl) with h | h
    · exact h
    · exact absurd ⟨hl, hasLine_o_of_checkWinner h⟩ hnd
  · rcases checkWinner_of_winConds (hasLine_winConds hl) with h | h
    · exact absurd ⟨hasLine_x_of_checkWinner h, hl⟩ hnd
    · exact h

/-- A board where X has completed row 0 and O has no line. -/
def xRowBoard : Board :=
  boardOfRows [[Cell.x, Cell.x, Cell.x], [Cell.o, Cell.o, Cell.e],
    [Cell.e, Cell.e, Cell.e]]

/-- Witness for the amended C4 on a concrete single-line board. -/
theorem checkWinner_matches_line_spec_witness :
    ¬ (hasLine xRowBoard Cell.x ∧ hasLine xRowBoard Cell.o) ∧
      ((checkWinner xRowBoard = 'X' ↔ hasLine xRowBoard Cell.x) ∧
       (checkWinner xRowBoard = 'O' ↔ hasLine xRowBoard Cell.o) ∧
       (checkWinner xRowBoard = 'D' ↔
         (¬ hasLine xRowBoard Cell.x ∧ ¬ hasLine xRowBoard Cell.o ∧
           freeCount xRowBoard = 0)) ∧
       (checkWinner xRowBoard = ' ' ↔
         (¬ hasLine xRowBoard Cell.x ∧ ¬ hasLine xRowBoard Cell.o ∧
           freeCount xRowBoard ≠ 0))) :=
  ⟨by decide, checkWinner_matches_line_spec xRowBoard (by decide)⟩

/-- `INT_MIN` from `<climits>` (32-bit int). -/
def intMin : Int := -2147483648

/-- `INT_MAX` from `<climits>` (32-bit int). -/
def intMax : Int := 2147483647

/-- One step of the maximizing `for (i) for (j)` loop body of `minimax`:
try COMPUTER at every free cell of `moves`, score it by the recursive
call `rec` (minimax at one less remaining depth), fold `max` into
bestScore, raise alpha, and return bestScore immediately when
`beta <= alpha`. -/
def abMaxLoop (rec : Board → Bool → Int → Int → Int) (b : Board) :
    List Pos → Int → Int → Int → Int
  | [], bestScore, _, _ => bestScore
  | p :: rest, bestScore, alpha, beta =>
      if b p.1 p.2 = Cell.e then
        let score := rec (setCell b p Cell.o) false alpha beta
        let bestScore' := max bestScore score
        let alpha' := max alpha score
        if beta ≤ alpha' then bestScore'
        else abMaxLoop rec b rest bestScore' alpha' beta
      else abMaxLoop rec b rest bestScore alpha beta

/-- The minimizing loop of `minimax`: try PLAYER at every free cell,
fold `min`, lower beta, and return immediately when `beta <= alpha`. -/
def abMinLoop (rec : Board → Bool → Int → Int → Int) (b : Board) :
    List Pos → Int → Int → Int → Int
  | [], bestScore, _, _ => bestScore
  | p :: rest, bestScore, alpha, beta =>
      if b p.1 p.2 = Cell.e then
        let score := rec (setCell b p Cell.x) true alpha beta
        let bestScore' := min bestScore score
        let beta' := min beta score
        if beta' ≤ alpha then bestScore'
        else abMinLoop rec b rest bestScore' alpha beta'
      else abMinLoop rec b rest bestScore alpha beta

/-- `minimax` from the source (alpha-beta version). The C++ `depth`
parameter is only ever incremented and never read, so it is dropped; an
explicit `fuel` parameter bounds the recursion depth instead (the C++
recursion terminates because each call fills one free cell, so any
`fuel ≥ freeCount b` computes the same value, see the stability lemmas).
Terminal positions score +10 (COMPUTER 'O' won), -10 (PLAYER 'X' won),
0 (draw). -/
def minimaxAB : Nat → Board → Bool → Int → Int → Int
  | fuel, b, isMaximizing, alpha, beta =>
    let winner := checkWinner b
    if winner = COMPUTER then 10
    else if winner = PLAYER then -10
    else if winner = 'D' then 0
    else
      match fuel with
      | 0 => if isMaximizing then intMin else intMax
      | fuel' + 1 =>
          if isMaximizing then
            abMaxLoop (minimaxAB fuel') b allPos intMin alpha beta
          else abMinLoop (minimaxAB fuel') b allPos intMax alpha beta

/-- Maximizing loop of the cutoff-free minimax: identical to `abMaxLoop`
with the `if (beta <= alpha) return bestScore;` line removed (alpha is
still updated and passed on). -/
def plainMaxLoop (rec : Board → Bool → Int → Int → Int) (b : Board) :
    List Pos → Int → Int → Int → Int
  | [], bestScore, _, _ => bestScore
  | p :: rest, bestScore, alpha, beta =>
      if b p.1 p.2 = Cell.e then
        let score := rec (setCell b p Cell.o) false alpha beta
        let bestScore' := max bestScore score
        let alpha' := max alpha score
        plainMaxLoop rec b rest bestScore' alpha' beta
      else plainMaxLoop rec b rest bestScore alpha beta

/-- Minimizing loop of the cutoff-free minimax. -/
def plainMinLoop (rec : Board → Bool → Int → Int → Int) (b : Board) :
    List Pos → Int → Int → Int → Int
  | [], bestScore, _, _ => bestScore
  | p :: rest, bestScore, alpha, beta =>
      if b p.1 p.2 = Cell.e then
        let score := rec (setCell b p Cell.x) true alpha beta
        let bestScore' := min bestScore score
        let beta' := min beta score
        plainMinLoop rec b rest bestScore' alpha beta'
      else plainMinLoop rec b rest bestScore alpha beta

/-- `minimax` with the `if (beta <= alpha) return bestScore;` cutoff
removed and nothing else changed: alpha and beta are still carried and
updated, but never cut the loops short. -/
def minimaxPlain : Nat → Board → Bool → Int → Int → Int
  | fuel, b, isMaximizing, alpha, beta =>
    let winner := checkWinner b
    if winner = COMPUTER then 10
    else if winner = PLAYER then -10
    else if winner = 'D' then 0
    else
      match fuel with
      | 0 => if isMaximizing then intMin else intMax
      | fuel' + 1 =>
          if isMaximizing then
            plainMaxLoop (minimaxPlain fuel') b allPos intMin alpha beta
          else plainMinLoop (minimaxPlain fuel') b allPos intMax alpha beta

/-- The scan of `minimaxMove` over all cells: for each free cell place
COMPUTER, score it by `f`, and keep the strictly best score with its cell
(first maximum kept, sentinel (-1,-1) when nothing was free). `f`
abstracts the call `minimax(board, 0, false, INT_MIN, INT_MAX)` so the
same driver can be run with and without pruning. -/
def minimaxMoveLoop (f : Board → Int) (b : Board) (moves : List Pos)
    (bestScore : Int) (bestMove : Int × Int) : Int × (Int × Int) :=
  match moves with
  | [] => (bestScore, bestMove)
  | p :: rest =>
      if b p.1 p.2 = Cell.e then
        let score := f (setCell b p Cell.o)
        if bestScore < score then
          minimaxMoveLoop f b rest score ((p.1 : Int), (p.2 : Int))
        else minimaxMoveLoop f b rest bestScore bestMove
      else minimaxMoveLoop f b rest bestScore bestMove

/-- `minimaxMove` from the source: scan all cells with the alpha-beta
minimax called at the top-level window (INT_MIN, INT_MAX), returning the
final bestScore and bestMove. Fuel 9 always suffices (a placed board has
at most 8 free cells). -/
def minimaxMoveSearch (b : Board) : Int × (Int × Int) :=
  minimaxMoveLoop (fun b' => minimaxAB 9 b' false intMin intMax) b allPos
    intMin (-1, -1)

/-- The same driver run on the cutoff-free minimax. -/
def minimaxMovePlainSearch (b : Board) : Int × (Int × Int) :=
  minimaxMoveLoop (fun b' => minimaxPlain 9 b' false intMin intMax) b allPos
    intMin (-1, -1)

/-- The move `minimaxMove` plays onto the board. -/
def minimaxMove (b : Board) : Int × Int :=
  (minimaxMoveSearch b).2

lemma abMaxLoop_ge (rec : Board → Bool → Int → Int → Int) (b : Board) :
    ∀ (l : List Pos) (bs alpha beta : Int), bs ≤ abMaxLoop rec b l bs alpha beta := by
  intro l
  induction l with
  | nil => intro bs alpha beta; simp [abMaxLoop]
  | cons p rest ih =>
      intro bs alpha beta
      rw [abMaxLoop]
      by_cases hp : b p.1 p.2 = Cell.e
      · simp only [if_pos hp]
        by_cases hcut : beta ≤ max alpha (rec (setCell b p Cell.o) false alpha beta)
        · simp only [if_pos hcut]
          exact le_max_left _ _
        · simp only [if_neg hcut]
          exact le_trans (le_max_left _ _) (ih _ _ _)
      · simp only [if_neg hp]
        exact ih _ _ _

lemma abMinLoop_le (rec : Board → Bool → Int → Int → Int) (b : Board) :
    ∀ (l : List Pos) (bs alpha beta : Int), abMinLoop rec b l bs alpha beta ≤ bs := by
  intro l
  induction l with
  | nil => intro bs alpha beta; simp [abMinLoop]
  | cons p rest ih =>
      intro bs alpha beta
      rw [abMinLoop]
      by_cases hp : b p.1 p.2 = Cell.e
      · simp only [if_pos hp]
        by_cases hcut : min beta (rec (setCell b p Cell.x) true alpha beta) ≤ alpha
        · simp only [if_pos hcut]
          exact min_le_left _ _
        · simp only [if_neg hcut]
          exact le_trans (ih _ _ _) (min_le_left _ _)
      · simp only [if_neg hp]
        exact ih _ _ _

lemma plainMaxLoop_ge (rec : Board → Bool → Int → Int → Int) (b : Board) :
    ∀ (l : List Pos) (bs alpha beta : Int),
      bs ≤ plainMaxLoop rec b l bs alpha beta := by
  intro l
  induction l with
  | nil => intro bs alpha beta; simp [plainMaxLoop]
  | cons p rest ih =>
      intro bs alpha beta
      rw [plainMaxLoop]
      by_cases hp : b p.1 p.2 = Cell.e
      · simp only [if_pos hp]
        exact le_trans (le_max_left _ _) (ih _ _ _)
      · simp only [if_neg hp]
        exact ih _ _ _

lemma plainMinLoop_le (rec : Board → Bool → Int → Int → Int) (b : Board) :
    ∀ (l : List Pos) (bs alpha beta : Int),
      plainMinLoop rec b l bs alpha beta ≤ bs := by
  intro l
  induction l with
  | nil => intro bs alpha beta; simp [plainMinLoop]
  | cons p rest ih =>
      intro bs alpha beta
      rw [plainMinLoop]
      by_cases hp : b p.1 p.2 = Cell.e
      · simp only [if_pos hp]
        exact le_trans (ih _ _ _) (min_le_left _ _)
      · simp only [if_neg hp]
        exact ih _ _ _

lemma plainMaxLoop_le_ten (rec : Board → Bool → Int → Int → Int) (b : Board)
    (hub : ∀ (p : Pos) (alpha beta : Int), b p.1 p.2 = Cell.e →
      rec (setCell b p Cell.o) false alpha beta ≤ 10) :
    ∀ (l : List Pos) (bs alpha beta : Int), bs ≤ 10 →
      plainMaxLoop rec b l bs alpha beta ≤ 10 := by
  intro l
  induction l with
  | nil => intro bs alpha beta h; simpa [plainMaxLoop] using h
  | cons p rest ih =>
      intro bs alpha beta h
      rw [plainMaxLoop]
      by_cases hp : b p.1 p.2 = Cell.e
      · simp only [if_pos hp]
        exact ih _ _ _ (max_le h (hub p alpha beta hp))
      · simp only [if_neg hp]
        exact ih _ _ _ h

lemma plainMaxLoop_ge_of_free (rec : Board → Bool → Int → Int → Int)
    (b : Board)
    (hlb : ∀ (p : Pos) (alpha beta : Int), b p.1 p.2 = Cell.e →
      -10 ≤ rec (setCell b p Cell.o) false alpha beta) :
    ∀ (l : List Pos) (bs alpha beta : Int),
      (∃ p ∈ l, b p.1 p.2 = Cell.e) →
      -10 ≤ plainMaxLoop rec b l bs alpha beta := by
  intro l
  induction l with
  | nil =>
      rintro bs alpha beta ⟨p, hp, -⟩
      cases hp
  | cons p rest ih =>
      rintro bs alpha beta ⟨q, hq, hqe⟩
      rw [plainMaxLoop]
      by_cases hp : b p.1 p.2 = Cell.e
      · simp only [if_pos hp]
        have h1 : -10 ≤ max bs (rec (setCell b p Cell.o) false alpha beta) :=
          le_trans (hlb p alpha beta hp) (le_max_right _ _)
        exact le_trans h1 (plainMaxLoop_ge rec b rest _ _ _)
      · simp only [if_neg hp]
        have hq' : q ∈ rest := by
          rcases List.mem_cons.mp hq with h | h
          · exact absurd (h ▸ hqe) hp
          · exact h
        exact ih _ _ _ ⟨q, hq', hqe⟩

lemma plainMinLoop_ge_neg_ten (rec : Board → Bool → Int → Int → Int)
    (b : Board)
    (hlb : ∀ (p : Pos) (alpha beta : Int), b p.1 p.2 = Cell.e →
      -10 ≤ rec (setCell b p Cell.x) true alpha beta) :
    ∀ (l : List Pos) (bs alpha beta : Int), -10 ≤ bs →
      -10 ≤ plainMinLoop rec b l bs alpha beta := by
  intro l
  induction l with
  | nil => intro bs alpha beta h; simpa [plainMinLoop] using h
  | cons p rest ih =>
      intro bs alpha beta h
      rw [plainMinLoop]
      by_cases hp : b p.1 p.2 = Cell.e
      · simp only [if_pos hp]
        exact ih _ _ _ (le_min h (hlb p alpha beta hp))
      · simp only [if_neg hp]
        exact ih _ _ _ h

lemma plainMinLoop_le_of_free (rec : Board → Bool → Int → Int → Int)
    (b : Board)
    (hub : ∀ (p : Pos) (alpha beta : Int), b p.1 p.2 = Cell.e →
      rec (setCell b p Cell.x) true alpha beta ≤ 10) :
    ∀ (l : List Pos) (bs alpha beta : Int),
      (∃ p ∈ l, b p.1 p.2 = Cell.e) →
      plainMinLoop rec b l bs alpha beta ≤ 10 := by
  intro l
  induction l with
  | nil =>
      rintro bs alpha beta ⟨p, hp, -⟩
      cases hp
  | cons p rest ih =>
      rintro bs alpha beta ⟨q, hq, hqe⟩
      rw [plainMinLoop]
      by_cases hp : b p.1 p.2 = Cell.e
      · simp only [if_pos hp]
        have h1 : min bs (rec (setCell b p Cell.x) true alpha beta) ≤ 10 :=
          le_trans (min_le_right _ _) (hub p alpha beta hp)
        exact le_trans (plainMinLoop_le rec b rest _ _ _) h1
      · simp only [if_neg hp]
        have hq' : q ∈ rest := by
          rcases List.mem_cons.mp hq with h | h
          · exact absurd (h ▸ hqe) hp
          · exact h
        exact ih _ _ _ ⟨q, hq', hqe⟩

lemma checkWinner_space_of_not_terminal {b : Board}
    (h1 : ¬ checkWinner b = COMPUTER) (h2 : ¬ checkWinner b = PLAYER)
    (h3 : ¬ checkWinner b = 'D') : checkWinner b = ' ' := by
  rcases checkWinner_mem b with h | h | h | h
  · exact h
  · exact absurd h h2
  · exact absurd h h1
  · exact absurd h h3

lemma minimaxPlain_bounds :
    ∀ (fuel : Nat) (b : Board) (m : Bool) (alpha beta : Int),
      freeCount b ≤ fuel →
      -10 ≤ minimaxPlain fuel b m alpha beta ∧
        minimaxPlain fuel b m alpha beta ≤ 10 := by
  intro fuel
  induction fuel with
  | zero =>
      intro b m alpha beta hfc
      rw [minimaxPlain]
      by_cases h1 : checkWinner b = COMPUTER
      · simp only [if_pos h1]; constructor <;> norm_num
      · by_cases h2 : checkWinner b = PLAYER
        · simp only [if_neg h1, if_pos h2]; constructor <;> norm_num
        · by_cases h3 : checkWinner b = 'D'
          · simp only [if_neg h1, if_neg h2, if_pos h3]; constructor <;> norm_num
          · have hsp := checkWinner_space_of_not_terminal h1 h2 h3
            have := checkWinner_space_freeCount hsp
            omega
  | succ fuel ih =>
      intro b m alpha beta hfc
      rw [minimaxPlain]
      by_cases h1 : checkWinner b = COMPUTER
      · simp only [if_pos h1]; constructor <;> norm_num
      · by_cases h2 : checkWinner b = PLAYER
        · simp only [if_neg h1, if_pos h2]; constructor <;> norm_num
        · by_cases h3 : checkWinner b = 'D'
          · simp only [if_neg h1, if_neg h2, if_pos h3]; constructor <;> norm_num
          · have hsp := checkWinner_space_of_not_terminal h1 h2 h3
            have hne := checkWinner_space_freeCount hsp
            have hpos : 0 < freeCount b := Nat.pos_of_ne_zero hne
            obtain ⟨p, hp⟩ := (freeCount_pos_iff b).mp hpos
            have hfcset : ∀ (q : Pos) (c : Cell), b q.1 q.2 = Cell.e →
                c ≠ Cell.e → freeCount (setCell b q c) ≤ fuel := by
              intro q c hq hc
              have := freeCount_setCell b q c hq hc
              omega
            simp only [if_neg h1, if_neg h2, if_neg h3]
            cases m
            · constructor
              · apply plainMinLoop_ge_neg_ten
                · intro q alpha' beta' hq
                  exact (ih (setCell b q Cell.x) true alpha' beta'
                    (hfcset q Cell.x hq (by decide))).1
                · norm_num [intMax]
              · apply plainMinLoop_le_of_free
                · intro q alpha' beta' hq
                  exact (ih (setCell b q Cell.x) true alpha' beta'
                    (hfcset q Cell.x hq (by decide))).2
                · exact ⟨p, mem_allPos p, hp⟩
            · constructor
              · apply plainMaxLoop_ge_of_free
                · intro q alpha' beta' hq
                  exact (ih (setCell b q Cell.o) false alpha' beta'
                    (hfcset q Cell.o hq (by decide))).1
                · exact ⟨p, mem_allPos p, hp⟩
              · apply plainMaxLoop_le_ten
                · intro q alpha' beta' hq
                  exact (ih (setCell b q Cell.o) false alpha' beta'
                    (hfcset q Cell.o hq (by decide))).2
                · norm_num [intMin]

/-- Fail-soft alpha-beta agreement: inside the window the pruned result
`r` equals the plain value `v`; a fail-low result stays at most alpha;
a fail-high result stays at least beta. -/
def Clamp (alpha beta v r : Int) : Prop :=
  (alpha < v → v < beta → r = v) ∧ (v ≤ alpha → r ≤ alpha) ∧
    (beta ≤ v → beta ≤ r)

lemma clamp_refl (alpha beta v : Int) : Clamp alpha beta v v :=
  ⟨fun _ _ => rfl, fun h => h, fun h => h⟩

lemma maxLoopClamp (fuel : Nat) (b : Board)
    (ih : ∀ (b' : Board) (m : Bool) (alpha beta : Int), freeCount b' ≤ fuel →
      intMin ≤ alpha → beta ≤ intMax → alpha < beta →
      Clamp alpha beta (minimaxPlain fuel b' m alpha beta)
        (minimaxAB fuel b' m alpha beta))
    (hfc : ∀ q : Pos, b q.1 q.2 = Cell.e →
      freeCount (setCell b q Cell.o) ≤ fuel) :
    ∀ (l : List Pos) (bsA bsP a beta : Int),
      bsA ≤ a → bsP ≤ a → intMin ≤ a → beta ≤ intMax → a < beta →
      Clamp a beta (plainMaxLoop (minimaxPlain fuel) b l bsP a beta)
        (abMaxLoop (minimaxAB fuel) b l bsA a beta) := by
  intro l
  induction l with
  | nil =>
      intro bsA bsP a beta hA hP hmin hmax hab
      simp only [plainMaxLoop, abMaxLoop]
      exact ⟨fun h1 _ => absurd h1 (not_lt.mpr hP), fun _ => hA,
        fun h3 => absurd (lt_of_lt_of_le hab h3) (not_lt.mpr hP)⟩
  | cons p rest ihl =>
      intro bsA bsP a beta hA hP hmin hmax hab
      by_cases hp : b p.1 p.2 = Cell.e
      · simp only [plainMaxLoop, abMaxLoop, if_pos hp]
        set v := minimaxPlain fuel (setCell b p Cell.o) false a beta with hvdef
        set s := minimaxAB fuel (setCell b p Cell.o) false a beta with hsdef
        obtain ⟨c1, c2, c3⟩ := ih (setCell b p Cell.o) false a beta
          (hfc p hp) hmin hmax hab
        by_cases hcut : beta ≤ max a s
        · have hsbeta : beta ≤ s := by
            rcases le_or_lt s a with h | h
            · omega
            · rcases max_cases a s with ⟨he, -⟩ | ⟨he, -⟩ <;> omega
          have hvbeta : beta ≤ v := by
            rcases le_or_lt v a with h | h
            · have := c2 h; omega
            · rcases lt_or_le v beta with h2 | h2
              · have := c1 h h2; omega
              · exact h2
          simp only [if_pos hcut]
          have hw : v ≤ plainMaxLoop (minimaxPlain fuel) b rest
              (max bsP v) (max a v) beta :=
            le_trans (le_max_right _ _) (plainMaxLoop_ge _ _ _ _ _ _)
          refine ⟨fun h1 h2 => absurd h2 (not_lt.mpr (le_trans hvbeta hw)),
            fun h2 => absurd (le_trans hvbeta hw)
              (not_le.mpr (lt_of_le_of_lt h2 hab)), fun _ => ?_⟩
          exact le_trans hsbeta (le_max_right _ _)
        · have hslt : s < beta := by
            rcases max_cases a s with ⟨-, -⟩ | ⟨-, -⟩ <;> omega
          simp only [if_neg hcut]
          by_cases hv : v ≤ a
          · have hs : s ≤ a := c2 hv
            rw [max_eq_left hs, max_eq_left hv]
            exact ihl (max bsA s) (max bsP v) a beta (max_le hA hs)
              (max_le hP hv) hmin hmax hab
          · push_neg at hv
            have hvbeta : v < beta := by
              rcases lt_or_le v beta with h | h
              · exact h
              · have := c3 h; omega
            have hsv : s = v := c1 hv hvbeta
            rw [hsv, max_eq_right (le_of_lt hv)]
            have hIH := ihl (max bsA v) (max bsP v) v beta
              (max_le (le_trans hA (le_of_lt hv)) le_rfl)
              (max_le (le_trans hP (le_of_lt hv)) le_rfl)
              (le_trans hmin (le_of_lt hv)) hmax hvbeta
            obtain ⟨d1, d2, d3⟩ := hIH
            have hwge : v ≤ plainMaxLoop (minimaxPlain fuel) b rest
                (max bsP v) v beta :=
              le_trans (le_max_right _ _) (plainMaxLoop_ge _ _ _ _ _ _)
            have hrge : v ≤ abMaxLoop (minimaxAB fuel) b rest
                (max bsA v) v beta :=
              le_trans (le_max_right _ _) (abMaxLoop_ge _ _ _ _ _ _)
            refine ⟨fun h1 h2 => ?_, fun h2 => ?_, fun h3 => d3 h3⟩
            · rcases lt_or_le v (plainMaxLoop (minimaxPlain fuel) b rest
                  (max bsP v) v beta) with h | h
              · exact d1 h h2
              · have hw : plainMaxLoop (minimaxPlain fuel) b rest
                    (max bsP v) v beta = v := le_antisymm h hwge
                have := d2 (le_of_eq hw)
                omega
            · omega
      · simp only [plainMaxLoop, abMaxLoop, if_neg hp]
        exact ihl bsA bsP a beta hA hP hmin hmax hab

lemma minLoopClamp (fuel : Nat) (b : Board)
    (ih : ∀ (b' : Board) (m : Bool) (alpha beta : Int), freeCount b' ≤ fuel →
      intMin ≤ alpha → beta ≤ intMax → alpha < beta →
      Clamp alpha beta (minimaxPlain fuel b' m alpha beta)
        (minimaxAB fuel b' m alpha beta))
    (hfc : ∀ q : Pos, b q.1 q.2 = Cell.e →
      freeCount (setCell b q Cell.x) ≤ fuel) :
    ∀ (l : List Pos) (bsA bsP alpha bt : Int),
      bt ≤ bsA → bt ≤ bsP → intMin ≤ alpha → bt ≤ intMax → alpha < bt →
      Clamp alpha bt (plainMinLoop (minimaxPlain fuel) b l bsP alpha bt)
        (abMinLoop (minimaxAB fuel) b l bsA alpha bt) := by
  intro l
  induction l with
  | nil =>
      intro bsA bsP alpha bt hA hP hmin hmax hab
      simp only [plainMinLoop, abMinLoop]
      exact ⟨fun _ h2 => absurd h2 (not_lt.mpr hP), fun h2 =>
        absurd (lt_of_lt_of_le hab hP) (not_lt.mpr h2), fun _ => hA⟩
  | cons p rest ihl =>
      intro bsA bsP alpha bt hA hP hmin hmax hab
      by_cases hp : b p.1 p.2 = Cell.e
      · simp only [plainMinLoop, abMinLoop, if_pos hp]
        set v := minimaxPlain fuel (setCell b p Cell.x) true alpha bt with hvdef
        set s := minimaxAB fuel (setCell b p Cell.x) true alpha bt with hsdef
        obtain ⟨c1, c2, c3⟩ := ih (setCell b p Cell.x) true alpha bt
          (hfc p hp) hmin hmax hab
        by_cases hcut : min bt s ≤ alpha
        · have hsalpha : s ≤ alpha := by
            rcases min_cases bt s with ⟨he, -⟩ | ⟨he, -⟩ <;> omega
          have hvalpha : v ≤ alpha := by
            rcases le_or_lt v alpha with h | h
            · exact h
            · rcases lt_or_le v bt with h2 | h2
              · have := c1 h h2; omega
              · have := c3 h2; omega
          simp only [if_pos hcut]
          have hw : plainMinLoop (minimaxPlain fuel) b rest
              (min bsP v) alpha (min bt v) ≤ v :=
            le_trans (plainMinLoop_le _ _ _ _ _ _) (min_le_right _ _)
          refine ⟨fun h1 _ => absurd h1 (not_lt.mpr (le_trans hw hvalpha)),
            fun _ => le_trans (min_le_right _ _) hsalpha,
            fun h3 => absurd (lt_of_le_of_lt (le_trans hw hvalpha) hab)
              (not_lt.mpr h3)⟩
        · have hsgt : alpha < s := by
            rcases min_cases bt s with ⟨-, -⟩ | ⟨-, -⟩ <;> omega
          simp only [if_neg hcut]
          by_cases hv : bt ≤ v
          · have hs : bt ≤ s := c3 hv
            rw [min_eq_left hs, min_eq_left hv]
            exact ihl (min bsA s) (min bsP v) alpha bt (le_min hA hs)
              (le_min hP hv) hmin hmax hab
          · push_neg at hv
            have hvalpha : alpha < v := by
              rcases le_or_lt v alpha with h | h
              · have := c2 h; omega
              · exact h
            have hsv : s = v := c1 hvalpha hv
            rw [hsv, min_eq_right (le_of_lt hv)]
            have hIH := ihl (min bsA v) (min bsP v) alpha v
              (le_min (le_trans (le_of_lt hv) hA) le_rfl)
              (le_min (le_trans (le_of_lt hv) hP) le_rfl)
              hmin (le_trans (le_of_lt hv) hmax) hvalpha
            obtain ⟨d1, d2, d3⟩ := hIH
            have hwle : plainMinLoop (minimaxPlain fuel) b rest
                (min bsP v) alpha v ≤ v :=
              le_trans (plainMinLoop_le _ _ _ _ _ _) (min_le_right _ _)
            have hrle : abMinLoop (minimaxAB fuel) b rest
                (min bsA v) alpha v ≤ v :=
              le_trans (abMinLoop_le _ _ _ _ _ _) (min_le_right _ _)
            refine ⟨fun h1 h2 => ?_, fun h2 => d2 h2, fun h3 => ?_⟩
            · rcases lt_or_le (plainMinLoop (minimaxPlain fuel) b rest
                  (min bsP v) alpha v) v with h | h
              · exact d1 h1 h
              · have hw : plainMinLoop (minimaxPlain fuel) b rest
                    (min bsP v) alpha v = v := le_antisymm hwle h
                have := d3 (le_of_eq hw.symm)
                omega
            · omega
      · simp only [plainMinLoop, abMinLoop, if_neg hp]
        exact ihl bsA bsP alpha bt hA hP hmin hmax hab

lemma minimaxClamp :
    ∀ (fuel : Nat) (b : Board) (m : Bool) (alpha beta : Int),
      freeCount b ≤ fuel → intMin ≤ alpha → beta ≤ intMax → alpha < beta →
      Clamp alpha beta (minimaxPlain fuel b m alpha beta)
        (minimaxAB fuel b m alpha beta) := by
  intro fuel
  induction fuel with
  | zero =>
      intro b m alpha beta hfc hmin hmax hab
      have : minimaxAB 0 b m alpha beta = minimaxPlain 0 b m alpha beta := by
        rw [minimaxAB, minimaxPlain]
      rw [this]
      exact clamp_refl _ _ _
  | succ fuel ih =>
      intro b m alpha beta hfc hmin hmax hab
      rw [minimaxAB, minimaxPlain]
      by_cases h1 : checkWinner b = COMPUTER
      · simp only [if_pos h1]; exact clamp_refl _ _ _
      · by_cases h2 : checkWinner b = PLAYER
        · simp only [if_neg h1, if_pos h2]; exact clamp_refl _ _ _
        · by_cases h3 : checkWinner b = 'D'
          · simp only [if_neg h1, if_neg h2, if_pos h3]; exact clamp_refl _ _ _
          · simp only [if_neg h1, if_neg h2, if_neg h3]
            cases m
            · simp only [Bool.false_eq_true, if_neg (by decide : ¬False)]
              apply minLoopClamp fuel b ih
              · intro q hq
                have := freeCount_setCell b q Cell.x hq (by decide)
                omega
              · exact hmax
              · exact hmax
              · exact hmin
              · exact hmax
              · exact hab
            · simp only [if_pos rfl]
              apply maxLoopClamp fuel b ih
              · intro q hq
                have := freeCount_setCell b q Cell.o hq (by decide)
                omega
              · exact hmin
              · exact hmin
              · exact hmin
              · exact hmax
              · exact hab

/-- At the full window (INT_MIN, INT_MAX) the pruned search returns
exactly the plain minimax value. -/
lemma minimaxAB_eq_plain_top (fuel : Nat) (b : Board) (m : Bool)
    (hfc : freeCount b ≤ fuel) :
    minimaxAB fuel b m intMin intMax = minimaxPlain fuel b m intMin intMax := by
  obtain ⟨c1, -, -⟩ := minimaxClamp fuel b m intMin intMax hfc le_rfl le_rfl
    (by norm_num [intMin, intMax])
  obtain ⟨hlb, hub⟩ := minimaxPlain_bounds fuel b m intMin intMax hfc
  exact c1 (by norm_num [intMin] at hlb ⊢; omega)
    (by norm_num [intMax] at hub ⊢; omega)

lemma minimaxMoveLoop_congr (f g : Board → Int) (b : Board)
    (hfg : ∀ p : Pos, b p.1 p.2 = Cell.e →
      f (setCell b p Cell.o) = g (setCell b p Cell.o)) :
    ∀ (l : List Pos) (bs : Int) (bm : Int × Int),
      minimaxMoveLoop f b l bs bm = minimaxMoveLoop g b l bs bm := by
  intro l
  induction l with
  | nil => intro bs bm; simp [minimaxMoveLoop]
  | cons p rest ih =>
      intro bs bm
      by_cases hp : b p.1 p.2 = Cell.e
      · simp only [minimaxMoveLoop, if_pos hp, hfg p hp]
        by_cases hlt : bs < g (setCell b p Cell.o)
        · simp only [if_pos hlt, ih]
        · simp only [if_neg hlt, ih]
      · simp only [minimaxMoveLoop, if_neg hp, ih]

/-- C1: pruning never changes the result of the search. On every board
with at most 6 free cells (in fact on every board), the score and the
move computed by the `minimaxMove` driver running alpha-beta minimax from
the window (INT_MIN, INT_MAX) equal the score and move computed by the
same driver running minimax with the `if (beta <= alpha) return` cutoff
removed. -/
theorem alphabeta_search_eq_plain_search (b : Board)
    (hfc : freeCount b ≤ 6) :
    minimaxMoveSearch b = minimaxMovePlainSearch b := by
  unfold minimaxMoveSearch minimaxMovePlainSearch
  apply minimaxMoveLoop_congr
  intro p hp
  apply minimaxAB_eq_plain_top
  have h9 := freeCount_le_nine b
  have := freeCount_setCell b p Cell.o hp (by decide)
  omega

/-- Witness for C1 on a concrete board with 5 free cells. -/
theorem alphabeta_search_eq_plain_search_witness :
    freeCount (boardOfRows [[Cell.x, Cell.x, Cell.e],
        [Cell.o, Cell.o, Cell.e], [Cell.e, Cell.e, Cell.e]]) ≤ 6 ∧
      minimaxMoveSearch (boardOfRows [[Cell.x, Cell.x, Cell.e],
        [Cell.o, Cell.o, Cell.e], [Cell.e, Cell.e, Cell.e]]) =
      minimaxMovePlainSearch (boardOfRows [[Cell.x, Cell.x, Cell.e],
        [Cell.o, Cell.o, Cell.e], [Cell.e, Cell.e, Cell.e]]) :=
  ⟨by decide, alphabeta_search_eq_plain_search _ (by decide)⟩

lemma minimaxMoveLoop_spec (f : Board → Int) (b : Board) :
    ∀ (l : List Pos) (bs : Int) (bm : Int × Int),
      (minimaxMoveLoop f b l bs bm = (bs, bm) ∧
        ∀ p ∈ l, b p.1 p.2 = Cell.e → f (setCell b p Cell.o) ≤ bs) ∨
      (∃ q ∈ l, b q.1 q.2 = Cell.e ∧
        minimaxMoveLoop f b l bs bm =
          (f (setCell b q Cell.o), ((q.1 : Int), (q.2 : Int))) ∧
        bs < f (setCell b q Cell.o) ∧
        ∀ p ∈ l, b p.1 p.2 = Cell.e →
          f (setCell b p Cell.o) ≤ f (setCell b q Cell.o)) := by
  intro l
  induction l with
  | nil =>
      intro bs bm
      left
      constructor
      · simp [minimaxMoveLoop]
      · intro p hp
        cases hp
  | cons p rest ih =>
      intro bs bm
      by_cases hp : b p.1 p.2 = Cell.e
      · by_cases hlt : bs < f (setCell b p Cell.o)
        · rcases ih (f (setCell b p Cell.o)) ((p.1 : Int), (p.2 : Int)) with
            ⟨heq, hall⟩ | ⟨q, hqmem, hqe, heq, hgt, hall⟩
          · right
            refine ⟨p, List.mem_cons_self p rest, hp, ?_, hlt, ?_⟩
            · simp only [minimaxMoveLoop, if_pos hp, if_pos hlt]
              exact heq
            · intro r hr hre
              rcases List.mem_cons.mp hr with h | h
              · subst h; exact le_rfl
              · exact hall r h hre
          · right
            refine ⟨q, List.mem_cons_of_mem p hqmem, hqe, ?_, ?_, ?_⟩
            · simp only [minimaxMoveLoop, if_pos hp, if_pos hlt]
              exact heq
            · exact lt_trans hlt hgt
            · intro r hr hre
              rcases List.mem_cons.mp hr with h | h
              · subst h; exact le_of_lt hgt
              · exact hall r h hre
        · rcases ih bs bm with ⟨heq, hall⟩ | ⟨q, hqmem, hqe, heq, hgt, hall⟩
          · left
            constructor
            · simp only [minimaxMoveLoop, if_pos hp, if_neg hlt]
              exact heq
            · intro r hr hre
              rcases List.mem_cons.mp hr with h | h
              · subst h; exact le_of_not_lt hlt
              · exact hall r h hre
          · right
            refine ⟨q, List.mem_cons_of_mem p hqmem, hqe, ?_, hgt, ?_⟩
            · simp only [minimaxMoveLoop, if_pos hp, if_neg hlt]
              exact heq
            · intro r hr hre
              rcases List.mem_cons.mp hr with h | h
              · subst h
                exact le_trans (le_of_not_lt hlt) (le_of_lt hgt)
              · exact hall r h hre
      · rcases ih bs bm with ⟨heq, hall⟩ | ⟨q, hqmem, hqe, heq, hgt, hall⟩
        · left
          constructor
          · simp only [minimaxMoveLoop, if_neg hp]
            exact heq
          · intro r hr hre
            rcases List.mem_cons.mp hr with h | h
            · exact absurd (h ▸ hre) hp
            · exact hall r h hre
        · right
          refine ⟨q, List.mem_cons_of_mem p hqmem, hqe, ?_, hgt, ?_⟩
          · simp only [minimaxMoveLoop, if_neg hp]
            exact heq
          · intro r hr hre
            rcases List.mem_cons.mp hr with h | h
            · exact absurd (h ▸ hre) hp
            · exact hall r h hre

/-- The game-theoretic value of a position for the automated side:
the plain (cutoff-free) full-depth minimax value at the full window,
+10 = O forces a win, 0 = draw under optimal play, -10 = X forces a win. -/
def gameValue (b : Board) (isMaximizing : Bool) : Int :=
  minimaxPlain 9 b isMaximizing intMin intMax

lemma minimaxAB_top_eq_gameValue (b : Board) (p : Pos)
    (hp : b p.1 p.2 = Cell.e) :
    minimaxAB 9 (setCell b p Cell.o) false intMin intMax =
      gameValue (setCell b p Cell.o) false := by
  apply minimaxAB_eq_plain_top
  have h9 := freeCount_le_nine b
  have := freeCount_setCell b p Cell.o hp (by decide)
  omega

/-- C2: minimax never plays into a forced loss when a draw or win is
available. If the board is non-terminal and some free cell gives the
automated side O a game-theoretic value of at least a draw (`0 ≤`
value with X to reply), then the move chosen by the `minimaxMove`
driver is a free cell whose value is also at least a draw. -/
theorem minimaxMove_at_least_draw (b : Board)
    (hongoing : checkWinner b = ' ')
    (hdraw : ∃ p : Pos, b p.1 p.2 = Cell.e ∧
      0 ≤ gameValue (setCell b p Cell.o) false) :
    ∃ q : Pos, b q.1 q.2 = Cell.e ∧
      minimaxMove b = ((q.1 : Int), (q.2 : Int)) ∧
      0 ≤ gameValue (setCell b q Cell.o) false := by
  obtain ⟨p, hp, hpv⟩ := hdraw
  have habp : ∀ r : Pos, b r.1 r.2 = Cell.e →
      minimaxAB 9 (setCell b r Cell.o) false intMin intMax =
        gameValue (setCell b r Cell.o) false :=
    fun r hr => minimaxAB_top_eq_gameValue b r hr
  rcases minimaxMoveLoop_spec
      (fun b' => minimaxAB 9 b' false intMin intMax) b allPos intMin
      (-1, -1) with ⟨-, hall⟩ | ⟨q, -, hqe, heq, -, hall⟩
  · have := hall p (mem_allPos p) hp
    rw [habp p hp] at this
    have : (0 : Int) ≤ intMin := le_trans hpv this
    norm_num [intMin] at this
  · refine ⟨q, hqe, ?_, ?_⟩
    · unfold minimaxMove minimaxMoveSearch
      rw [heq]
    · have hle := hall p (mem_allPos p) hp
      rw [habp p hp, habp q hqe] at hle
      exact le_trans hpv hle

/-- Board for the C2 witness: O to move, two free cells, both draws. -/
def c2Board : Board :=
  boardOfRows [[Cell.x, Cell.x, Cell.o], [Cell.o, Cell.o, Cell.x],
    [Cell.x, Cell.e, Cell.e]]

/-- Witness for C2 on a concrete non-terminal board. -/
theorem minimaxMove_at_least_draw_witness :
    checkWinner c2Board = ' ' ∧
      ∃ q : Pos, c2Board q.1 q.2 = Cell.e ∧
        minimaxMove c2Board = ((q.1 : Int), (q.2 : Int)) ∧
        0 ≤ gameValue (setCell c2Board q Cell.o) false :=
  ⟨by decide, minimaxMove_at_least_draw c2Board (by decide)
    ⟨⟨2, 1⟩, by decide, by decide⟩⟩

lemma setCell_setCell (b : Board) (p : Pos) (c d : Cell) :
    setCell (setCell b p c) p d = setCell b p d := by
  funext i j
  by_cases h : i = p.1 ∧ j = p.2 <;> simp [setCell, h]

lemma setCell_eq_self (b : Board) (p : Pos) {c : Cell}
    (h : b p.1 p.2 = c) : setCell b p c = b := by
  funext i j
  by_cases hp : i = p.1 ∧ j = p.2
  · rw [setCell, if_pos hp, ← h, hp.1, hp.2]
  · rw [setCell, if_neg hp]

/-- The maximizing loop of `minimax` with the in-place mutation made
explicit: the board is threaded through the loop; each free cell is set
to COMPUTER (`currentBoard[i][j] = COMPUTER`), the recursive search
returns its own final board, and the cell is then restored to ' '
(`currentBoard[i][j] = ' '`) before the cutoff test — so also branches
cut off by `beta <= alpha` restore the cell first. -/
def stMaxLoop (rec : Board → Bool → Int → Int → Int × Board) (b : Board) :
    List Pos → Int → Int → Int → Int × Board
  | [], bestScore, _, _ => (bestScore, b)
  | p :: rest, bestScore, alpha, beta =>
      if b p.1 p.2 = Cell.e then
        let res := rec (setCell b p Cell.o) false alpha beta
        let restored := setCell res.2 p Cell.e
        let bestScore' := max bestScore res.1
        let alpha' := max alpha res.1
        if beta ≤ alpha' then (bestScore', restored)
        else stMaxLoop rec restored rest bestScore' alpha' beta
      else stMaxLoop rec b rest bestScore alpha beta

/-- The minimizing loop of `minimax` with the mutation made explicit. -/
def stMinLoop (rec : Board → Bool → Int → Int → Int × Board) (b : Board) :
    List Pos → Int → Int → Int → Int × Board
  | [], bestScore, _, _ => (bestScore, b)
  | p :: rest, bestScore, alpha, beta =>
      if b p.1 p.2 = Cell.e then
        let res := rec (setCell b p Cell.x) true alpha beta
        let restored := setCell res.2 p Cell.e
        let bestScore' := min bestScore res.1
        let beta' := min beta res.1
        if beta' ≤ alpha then (bestScore', restored)
        else stMinLoop rec restored rest bestScore' alpha beta'
      else stMinLoop rec b rest bestScore alpha beta

/-- `minimax` with its board mutation made explicit: returns the score
together with the board as it is when the function returns. -/
def minimaxSt : Nat → Board → Bool → Int → Int → Int × Board
  | fuel, b, isMaximizing, alpha, beta =>
    let winner := checkWinner b
    if winner = COMPUTER then (10, b)
    else if winner = PLAYER then (-10, b)
    else if winner = 'D' then (0, b)
    else
      match fuel with
      | 0 => (if isMaximizing then intMin else intMax, b)
      | fuel' + 1 =>
          if isMaximizing then
            stMaxLoop (minimaxSt fuel') b allPos intMin alpha beta
          else stMinLoop (minimaxSt fuel') b allPos intMax alpha beta

lemma stMaxLoop_eq (fuel : Nat)
    (ihnode : ∀ (b' : Board) (m : Bool) (alpha beta : Int),
      minimaxSt fuel b' m alpha beta = (minimaxAB fuel b' m alpha beta, b'))
    (b : Board) :
    ∀ (l : List Pos) (bs alpha beta : Int),
      stMaxLoop (minimaxSt fuel) b l bs alpha beta =
        (abMaxLoop (minimaxAB fuel) b l bs alpha beta, b) := by
  intro l
  induction l generalizing b with
  | nil => intro bs alpha beta; simp [stMaxLoop, abMaxLoop]
  | cons p rest ih =>
      intro bs alpha beta
      by_cases hp : b p.1 p.2 = Cell.e
      · have hres : setCell (setCell b p Cell.o) p Cell.e = b := by
          rw [setCell_setCell]
          exact setCell_eq_self b p hp
        simp only [stMaxLoop, abMaxLoop, if_pos hp, ihnode, hres]
        by_cases hcut : beta ≤
            max alpha (minimaxAB fuel (setCell b p Cell.o) false alpha beta)
        · simp only [if_pos hcut]
        · simp only [if_neg hcut, ih]
      · simp only [stMaxLoop, abMaxLoop, if_neg hp, ih]

lemma stMinLoop_eq (fuel : Nat)
    (ihnode : ∀ (b' : Board) (m : Bool) (alpha beta : Int),
      minimaxSt fuel b' m alpha beta = (minimaxAB fuel b' m alpha beta, b'))
    (b : Board) :
    ∀ (l : List Pos) (bs alpha beta : Int),
      stMinLoop (minimaxSt fuel) b l bs alpha beta =
        (abMinLoop (minimaxAB fuel) b l bs alpha beta, b) := by
  intro l
  induction l generalizing b with
  | nil => intro bs alpha beta; simp [stMinLoop, abMinLoop]
  | cons p rest ih =>
      intro bs alpha beta
      by_cases hp : b p.1 p.2 = Cell.e
      · have hres : setCell (setCell b p Cell.x) p Cell.e = b := by
          rw [setCell_setCell]
          exact setCell_eq_self b p hp
        simp only [stMinLoop, abMinLoop, if_pos hp, ihnode, hres]
        by_cases hcut :
            min beta (minimaxAB fuel (setCell b p Cell.x) true alpha beta) ≤
              alpha
        · simp only [if_pos hcut]
        · simp only [if_neg hcut, ih]
      · simp only [stMinLoop, abMinLoop, if_neg hp, ih]

/-- The stateful minimax computes the pure score and hands the board back
exactly as it received it, on every branch. -/
lemma minimaxSt_eq :
    ∀ (fuel : Nat) (b : Board) (m : Bool) (alpha beta : Int),
      minimaxSt fuel b m alpha beta = (minimaxAB fuel b m alpha beta, b) := by
  intro fuel
  induction fuel with
  | zero =>
      intro b m alpha beta
      rw [minimaxSt, minimaxAB]
      by_cases h1 : checkWinner b = COMPUTER
      · simp [h1]
      · by_cases h2 : checkWinner b = PLAYER
        · simp [h1, h2, PLAYER, COMPUTER]
        · by_cases h3 : checkWinner b = 'D'
          · simp [h1, h2, h3, PLAYER, COMPUTER]
          · simp [h1, h2, h3]
  | succ fuel ih =>
      intro b m alpha beta
      rw [minimaxSt, minimaxAB]
      by_cases h1 : checkWinner b = COMPUTER
      · simp [h1]
      · by_cases h2 : checkWinner b = PLAYER
        · simp [h1, h2, PLAYER, COMPUTER]
        · by_cases h3 : checkWinner b = 'D'
          · simp [h1, h2, h3, PLAYER, COMPUTER]
          · cases m
            · simp only [h1, h2, h3, if_false, Bool.false_eq_true]
              simp [stMinLoop_eq fuel ih b]
            · simp only [h1, h2, h3, if_false]
              simp [stMaxLoop_eq fuel ih b]

/-- The sources of nondeterminism of the MCTS implementation, abstracted
as explicit choice functions indexed by a call counter `t` that advances
on every use: `shuffle` stands for the `random_shuffle` of the untried
moves in the `MCTSNode` constructor, `rand` for the raw `rand()` values
used as `rand() % freeSpaces.size()` in the rollout, and `select` for
the index `selectChild` picks among the children (its UCB1 comparison is
on C doubles, so the descent choice is kept abstract; every concrete run
is one instance of an oracle). -/
structure Oracle where
  shuffle : Nat → List Pos → List Pos
  rand : Nat → Nat
  select : Nat → Nat → Nat

/-- `MCTSNode`: board copy, side to move at the node, the move that led
here (`(-1,-1)` at the root), win score W, visit count N, children, and
the not-yet-expanded moves. -/
inductive MTree : Type where
  | mk : Board → Cell → (Int × Int) → Int → Int → List MTree → List Pos → MTree

def MTree.boardState : MTree → Board
  | MTree.mk bs _ _ _ _ _ _ => bs

def MTree.playerToMove : MTree → Cell
  | MTree.mk _ p _ _ _ _ _ => p

def MTree.lastMove : MTree → Int × Int
  | MTree.mk _ _ lm _ _ _ _ => lm

def MTree.winScore : MTree → Int
  | MTree.mk _ _ _ w _ _ _ => w

def MTree.visits : MTree → Int
  | MTree.mk _ _ _ _ n _ _ => n

def MTree.children : MTree → List MTree
  | MTree.mk _ _ _ _ _ ch _ => ch

def MTree.untried : MTree → List Pos
  | MTree.mk _ _ _ _ _ _ un => un

/-- The `MCTSNode` constructor: copy the board, gather the empty cells as
untried moves (shuffled by `random_shuffle`), start with W = N = 0 and no
children. Returns the node and the advanced oracle counter. -/
def mkNode (orc : Oracle) (t : Nat) (b : Board) (player : Cell)
    (lm : Int × Int) : MTree × Nat :=
  (MTree.mk b player lm 0 0 [] (orc.shuffle t (freeCells b)), t + 1)

/-- `simulateGame` (called `simulateRandomGame` in one listing): play
uniformly random moves on a private copy until terminal; +10 for a
COMPUTER win, -10 for a PLAYER win, 0 for a draw (also when no free
space is left). Fuel bounds the loop; any `fuel ≥ freeCount b`
computes the limit since every step fills one free cell. -/
def simulateGame (orc : Oracle) : Nat → Nat → Board → Cell → Int × Nat
  | fuel, t, b, currentPlayer =>
    let winner := checkWinner b
    if winner ≠ ' ' then
      (if winner = COMPUTER then 10 else if winner = PLAYER then -10 else 0, t)
    else
      let fs := freeCells b
      if hfs : fs = [] then (0, t)
      else
        match fuel with
        | 0 => (0, t)
        | fuel' + 1 =>
            let idx := orc.rand t % fs.length
            let mv := fs.get ⟨idx, Nat.mod_lt _ (List.length_pos.mpr hfs)⟩
            simulateGame orc fuel' (t + 1) (setCell b mv currentPlayer)
              (flipSide currentPlayer)

/-- The per-node increment `backpropagate` adds to the win score W:
`score_to_backpropagate` is 1 for a COMPUTER win (+10), 0 for a COMPUTER
loss (-10), and 0 otherwise (draw). -/
def bpInc (result : Int) : Int :=
  if result = 10 then 1 else if result = -10 then 0 else 0

/-- Result assigned to a terminal node inside the `runMCTS` iteration. -/
def terminalResult (w : Char) : Int :=
  if w = COMPUTER then 10 else if w = PLAYER then -10 else 0

/-- One `backpropagate` update applied to a single node: N++ and
W += score. -/
def bumpNode : MTree → Int → MTree
  | MTree.mk bs p lm w n ch un, result =>
      MTree.mk bs p lm (w + bpInc result) (n + 1) ch un

lemma sizeOf_get_lt (l : List MTree) (i : Fin l.length) :
    sizeOf (l.get i) < sizeOf l :=
  List.sizeOf_lt_of_mem (l.get_mem i.1 i.2)

/-- One iteration of the `runMCTS` loop, written as a recursion on the
tree: descend (selection) while the node has no untried moves, is
non-terminal and has children, picking the child the oracle's `select`
names (`selectChild`); at the stop node expand one untried move
(`expandNode` takes `untriedMoves.back()` and pops it, appends the new
child), simulate from the reached node (or read off the terminal
result), and on the way back up apply the `backpropagate` update N++ /
W += score to every node on the path. Returns the updated subtree, the
simulation result and the advanced counter. -/
def mctsIterate (orc : Oracle) (t : Nat) (tr : MTree) : MTree × Int × Nat :=
  match tr with
  | MTree.mk bs player lm w n children untried =>
    if huntried : untried = [] then
      if checkWinner bs = ' ' then
        if hch : children.length = 0 then
          let sim := simulateGame orc 9 t bs player
          (MTree.mk bs player lm (w + bpInc sim.1) (n + 1) children untried,
            sim.1, sim.2)
        else
          let len := children.length
          let i : Fin len :=
            ⟨orc.select t len % len, Nat.mod_lt _ (Nat.pos_of_ne_zero hch)⟩
          let rec₀ := mctsIterate orc (t + 1) (children.get i)
          (MTree.mk bs player lm (w + bpInc rec₀.2.1) (n + 1)
            (children.set i rec₀.1) untried, rec₀.2.1, rec₀.2.2)
      else
        let res := terminalResult (checkWinner bs)
        (MTree.mk bs player lm (w + bpInc res) (n + 1) children untried,
          res, t)
    else
      if checkWinner bs = ' ' then
        let mv := untried.getLast huntried
        let untried' := untried.dropLast
        let childBoard := setCell bs mv player
        let nextPlayer := flipSide player
        let made := mkNode orc t childBoard nextPlayer
          ((mv.1 : Int), (mv.2 : Int))
        let res :=
          if checkWinner childBoard = ' ' then
            simulateGame orc 9 made.2 childBoard nextPlayer
          else (terminalResult (checkWinner childBoard), made.2)
        (MTree.mk bs player lm (w + bpInc res.1) (n + 1)
          (children ++ [bumpNode made.1 res.1]) untried', res.1, res.2)
      else
        let res := terminalResult (checkWinner bs)
        (MTree.mk bs player lm (w + bpInc res) (n + 1) children untried,
          res, t)
termination_by sizeOf tr
decreasing_by
  rename_i player lm w n children untried hterm
  refine lt_of_lt_of_le (sizeOf_get_lt children _) ?_
  simp only [MTree.mk.sizeOf_spec]
  omega

/-- The `for (int i = 0; i < iterations; ++i)` loop of `runMCTS`. -/
def mctsLoop (orc : Oracle) : Nat → MTree → Nat → MTree × Nat
  | 0, tr, t => (tr, t)
  | iter + 1, tr, t =>
      let it := mctsIterate orc t tr
      mctsLoop orc iter it.1 it.2.2

/-- The final-selection scan of `runMCTS`: keep the child whose visit
count strictly exceeds the running maximum (initially -1), so the first
child attaining the maximum is kept. -/
def bestScan : List MTree → Int → Option MTree → Option MTree
  | [], _, best => best
  | c :: rest, maxVisits, best =>
      if maxVisits < c.visits then bestScan rest c.visits (some c)
      else bestScan rest maxVisits best

/-- The tree `runMCTS` has built when its iteration loop finishes. -/
def runMCTSTree (orc : Oracle) (b : Board) (iterations : Nat) : MTree :=
  let root := mkNode orc 0 b Cell.o (-1, -1)
  (mctsLoop orc iterations root.1 root.2).1

/-- `runMCTS`: build the root for the COMPUTER side, run the iterations,
then return the most-visited root child's move, or (-1,-1) when the root
has no children. -/
def runMCTS (orc : Oracle) (b : Board) (iterations : Nat) : Int × Int :=
  match bestScan (runMCTSTree orc b iterations).children (-1) none with
  | some c => c.lastMove
  | none => (-1, -1)

/-- C3: the board passed into a search has exactly the same cell contents
after the search returns. `minimaxSt` is `minimax` with its in-place
mutation made explicit (every tried cell is set and then restored to ' '
on each branch, including branches cut off by beta <= alpha); it returns
the pure alpha-beta score together with the unchanged input board. The
MCTS side reads the input board only to copy it into a private node
board: the node a fresh `MCTSNode` holds is exactly the input board, and
`runMCTS` takes the board by value and never writes it. -/
theorem search_preserves_board :
    (∀ (fuel : Nat) (b : Board) (m : Bool) (alpha beta : Int),
      minimaxSt fuel b m alpha beta = (minimaxAB fuel b m alpha beta, b)) ∧
    (∀ (orc : Oracle) (t : Nat) (b : Board) (player : Cell)
      (lm : Int × Int), (mkNode orc t b player lm).1.boardState = b) :=
  ⟨minimaxSt_eq, fun _ _ _ _ _ => rfl⟩

lemma mctsIterate_visits (orc : Oracle) (t : Nat) (tr : MTree) :
    (mctsIterate orc t tr).1.visits = tr.visits + 1 := by
  rcases tr with ⟨bs, player, lm, w, n, children, untried⟩
  rw [mctsIterate]
  split_ifs <;> simp [MTree.visits]

lemma mctsIterate_lastMove (orc : Oracle) (t : Nat) (tr : MTree) :
    (mctsIterate orc t tr).1.lastMove = tr.lastMove := by
  rcases tr with ⟨bs, player, lm, w, n, children, untried⟩
  rw [mctsIterate]
  split_ifs <;> simp [MTree.lastMove]

lemma mctsIterate_boardState (orc : Oracle) (t : Nat) (tr : MTree) :
    (mctsIterate orc t tr).1.boardState = tr.boardState := by
  rcases tr with ⟨bs, player, lm, w, n, children, untried⟩
  rw [mctsIterate]
  split_ifs <;> simp [MTree.boardState]

lemma mctsLoop_visits (orc : Oracle) :
    ∀ (iters : Nat) (tr : MTree) (t : Nat),
      (mctsLoop orc iters tr t).1.visits = tr.visits + (iters : Int) := by
  intro iters
  induction iters with
  | zero => intro tr t; simp [mctsLoop]
  | succ iters ih =>
      intro tr t
      rw [mctsLoop]
      rw [ih]
      rw [mctsIterate_visits]
      push_cast
      ring

/-- C6: after `runMCTS` completes its N iterations from a fresh tree, the
root's visit count is exactly N — each iteration backpropagates once, and
backpropagation increments every node on the path up to and including the
root. -/
theorem mcts_root_visits_eq_iterations (orc : Oracle) (b : Board)
    (iterations : Nat) :
    (runMCTSTree orc b iterations).visits = (iterations : Int) := by
  unfold runMCTSTree
  rw [mctsLoop_visits]
  simp [mkNode, MTree.visits]

/-- A node on the `node → parent → ... → root` chain that `backpropagate`
walks: its W and N counters and the side to move stored at the node. -/
structure PathNode where
  winScore : Int
  visits : Int
  playerToMove : Cell

/-- `backpropagate` from the source, on the ancestor chain (the list
`[node, parent, ..., root]` of the C++ `current = current->parent` walk):
each node gets N++ and W += score, where the score is 1 for result +10,
0 for result -10, and 0 otherwise. -/
def backpropagate : List PathNode → Int → List PathNode
  | [], _ => []
  | node :: ancestors, result =>
      ⟨node.winScore + bpInc result, node.visits + 1, node.playerToMove⟩ ::
        backpropagate ancestors result

lemma bpInc_eq (result : Int) :
    bpInc result = if result = 10 then 1 else 0 := by
  by_cases h : result = 10
  · simp [bpInc, h]
  · by_cases h2 : result = -10 <;> simp [bpInc, h, h2]

/-- C7: backpropagation updates every node on the chain up to and
including the root: N goes up by one everywhere, and W goes up by one
exactly when the simulation result was an automated-side (O) win (+10);
opponent wins (-10) and draws (0) add 0 — at every node, regardless of
the side to move stored there (the update never reads `playerToMove`).
The same update (`bumpNode`) is the one the tree iteration applies. -/
theorem backpropagate_counts_computer_wins :
    (∀ (path : List PathNode) (result : Int),
      backpropagate path result = path.map (fun nd =>
        ⟨nd.winScore + (if result = 10 then 1 else 0), nd.visits + 1,
          nd.playerToMove⟩)) ∧
    (∀ (tr : MTree) (result : Int),
      (bumpNode tr result).winScore =
        tr.winScore + (if result = 10 then 1 else 0) ∧
      (bumpNode tr result).visits = tr.visits + 1) := by
  constructor
  · intro path result
    induction path with
    | nil => simp [backpropagate]
    | cons nd rest ih =>
        simp only [backpropagate, List.map_cons, ih, bpInc_eq]
  · intro tr result
    rcases tr with ⟨bs, player, lm, w, n, children, untried⟩
    simp [bumpNode, MTree.winScore, MTree.visits, bpInc_eq]

lemma bumpNode_lastMove (tr : MTree) (result : Int) :
    (bumpNode tr result).lastMove = tr.lastMove := by
  rcases tr with ⟨bs, player, lm, w, n, children, untried⟩
  simp [bumpNode, MTree.lastMove]

lemma bumpNode_visits (tr : MTree) (result : Int) :
    (bumpNode tr result).visits = tr.visits + 1 := by
  rcases tr with ⟨bs, player, lm, w, n, children, untried⟩
  simp [bumpNode, MTree.visits]

lemma mctsIterate_children_terminal (orc : Oracle) (t : Nat) (tr : MTree)
    (h : checkWinner tr.boardState ≠ ' ') :
    (mctsIterate orc t tr).1.children = tr.children := by
  rcases tr with ⟨bs, player, lm, w, n, children, untried⟩
  simp only [MTree.boardState] at h
  rw [mctsIterate]
  by_cases h1 : untried = [] <;> simp [h1, h, MTree.children]

lemma mctsIterate_children_grow (orc : Oracle) (t : Nat) (tr : MTree) :
    tr.children.length ≤ (mctsIterate orc t tr).1.children.length := by
  rcases tr with ⟨bs, player, lm, w, n, children, untried⟩
  rw [mctsIterate]
  split_ifs <;> simp [MTree.children]

lemma mctsIterate_children_expand (orc : Oracle) (t : Nat) (tr : MTree)
    (hu : tr.untried ≠ []) (hw : checkWinner tr.boardState = ' ') :
    (mctsIterate orc t tr).1.children.length = tr.children.length + 1 := by
  rcases tr with ⟨bs, player, lm, w, n, children, untried⟩
  simp only [MTree.untried] at hu
  simp only [MTree.boardState] at hw
  rw [mctsIterate]
  simp [hu, hw, MTree.children]

/-- Invariant on the root node maintained through the iterations: every
untried move is a free cell of the input board, and every child was
created from an untried move of the root — its lastMove is a free cell of
the input board — with a nonnegative visit count. -/
def RootInv (b : Board) (tr : MTree) : Prop :=
  (∀ q ∈ tr.untried, b q.1 q.2 = Cell.e) ∧
  ∀ c ∈ tr.children,
    (∃ q : Pos, c.lastMove = ((q.1 : Int), (q.2 : Int)) ∧
      b q.1 q.2 = Cell.e) ∧ 0 ≤ c.visits

lemma rootInv_mctsIterate (orc : Oracle) (t : Nat) (b : Board) (tr : MTree)
    (h : RootInv b tr) : RootInv b (mctsIterate orc t tr).1 := by
  rcases tr with ⟨bs, player, lm, w, n, children, untried⟩
  obtain ⟨hu, hc⟩ := h
  simp only [MTree.untried] at hu
  simp only [MTree.children] at hc
  rw [mctsIterate]
  by_cases h1 : untried = []
  · simp only [dif_pos h1]
    by_cases h2 : checkWinner bs = ' '
    · simp only [if_pos h2]
      by_cases h3 : children.length = 0
      · simp only [dif_pos h3]
        exact ⟨hu, hc⟩
      · simp only [dif_neg h3]
        refine ⟨hu, ?_⟩
        intro c hcmem
        simp only [MTree.children] at hcmem
        rcases List.mem_or_eq_of_mem_set hcmem with hmem | heq
        · exact hc c hmem
        · subst heq
          set i : Fin children.length :=
            ⟨orc.select t children.length % children.length,
              Nat.mod_lt _ (Nat.pos_of_ne_zero h3)⟩ with hidef
          have hget := hc (children.get i) (children.get_mem i.1 i.2)
          constructor
          · rw [mctsIterate_lastMove]
            exact hget.1
          · rw [mctsIterate_visits]
            have := hget.2
            omega
    · simp only [if_neg h2]
      exact ⟨hu, hc⟩
  · simp only [dif_neg h1]
    by_cases h2 : checkWinner bs = ' '
    · simp only [if_pos h2]
      constructor
      · intro q hq
        simp only [MTree.untried] at hq
        exact hu q ((List.dropLast_sublist untried).subset hq)
      · intro c hcmem
        simp only [MTree.children] at hcmem
        rcases List.mem_append.mp hcmem with hmem | heq
        · exact hc c hmem
        · obtain rfl := List.mem_singleton.mp heq
          constructor
          · rw [bumpNode_lastMove]
            refine ⟨untried.getLast h1, ?_, hu _ (List.getLast_mem h1)⟩
            simp [mkNode, MTree.lastMove]
          · rw [bumpNode_visits]
            simp [mkNode, MTree.visits]
    · simp only [if_neg h2]
      exact ⟨hu, hc⟩

lemma mctsLoop_boardState (orc : Oracle) :
    ∀ (iters : Nat) (tr : MTree) (t : Nat),
      (mctsLoop orc iters tr t).1.boardState = tr.boardState := by
  intro iters
  induction iters with
  | zero => intro tr t; simp [mctsLoop]
  | succ iters ih =>
      intro tr t
      rw [mctsLoop, ih, mctsIterate_boardState]

lemma mctsLoop_children_terminal (orc : Oracle) :
    ∀ (iters : Nat) (tr : MTree) (t : Nat),
      checkWinner tr.boardState ≠ ' ' →
      (mctsLoop orc iters tr t).1.children = tr.children := by
  intro iters
  induction iters with
  | zero => intro tr t _; simp [mctsLoop]
  | succ iters ih =>
      intro tr t h
      rw [mctsLoop, ih]
      · exact mctsIterate_children_terminal orc t tr h
      · rw [mctsIterate_boardState]
        exact h

lemma mctsLoop_children_grow (orc : Oracle) :
    ∀ (iters : Nat) (tr : MTree) (t : Nat),
      tr.children.length ≤ (mctsLoop orc iters tr t).1.children.length := by
  intro iters
  induction iters with
  | zero => intro tr t; simp [mctsLoop]
  | succ iters ih =>
      intro tr t
      rw [mctsLoop]
      exact le_trans (mctsIterate_children_grow orc t tr) (ih _ _)

lemma rootInv_mctsLoop (orc : Oracle) (b : Board) :
    ∀ (iters : Nat) (tr : MTree) (t : Nat),
      RootInv b tr → RootInv b (mctsLoop orc iters tr t).1 := by
  intro iters
  induction iters with
  | zero => intro tr t h; simpa [mctsLoop] using h
  | succ iters ih =>
      intro tr t h
      rw [mctsLoop]
      exact ih _ _ (rootInv_mctsIterate orc t b tr h)

lemma rootInv_mkNode (orc : Oracle) (b : Board) (t : Nat) (player : Cell)
    (lm : Int × Int)
    (hshuffle : ∀ (k : Nat) (l : List Pos), (orc.shuffle k l).Perm l) :
    RootInv b (mkNode orc t b player lm).1 := by
  constructor
  · intro q hq
    simp only [mkNode, MTree.untried] at hq
    have : q ∈ freeCells b := ((hshuffle t (freeCells b)).mem_iff).mp hq
    exact of_decide_eq_true (List.mem_filter.mp this).2
  · intro c hcmem
    simp only [mkNode, MTree.children] at hcmem
    cases hcmem

lemma bestScan_spec :
    ∀ (rest : List MTree) (c : MTree),
      ∃ d, bestScan rest c.visits (some c) = some d ∧
        ((d = c ∧ ∀ e ∈ rest, e.visits ≤ c.visits) ∨
         (∃ pre post, rest = pre ++ d :: post ∧ c.visits < d.visits ∧
           (∀ e ∈ pre, e.visits < d.visits) ∧
           (∀ e ∈ post, e.visits ≤ d.visits))) := by
  intro rest
  induction rest with
  | nil =>
      intro c
      refine ⟨c, by simp [bestScan], Or.inl ⟨rfl, ?_⟩⟩
      intro e he
      cases he
  | cons e rest ih =>
      intro c
      by_cases hlt : c.visits < e.visits
      · obtain ⟨d, heq, hcase⟩ := ih e
        refine ⟨d, ?_, ?_⟩
        · rw [bestScan, if_pos hlt]
          exact heq
        · rcases hcase with ⟨rfl, hall⟩ | ⟨pre, post, hsplit, hgt, hpre, hpost⟩
          · exact Or.inr ⟨[], rest, rfl, hlt, fun f hf => absurd hf
              (List.not_mem_nil f), hall⟩
          · refine Or.inr ⟨e :: pre, post, by rw [hsplit]; rfl, lt_trans hlt hgt,
              ?_, hpost⟩
            intro f hf
            rcases List.mem_cons.mp hf with rfl | hf'
            · exact hgt
            · exact hpre f hf'
      · obtain ⟨d, heq, hcase⟩ := ih c
        refine ⟨d, ?_, ?_⟩
        · rw [bestScan, if_neg hlt]
          exact heq
        · rcases hcase with ⟨rfl, hall⟩ | ⟨pre, post, hsplit, hgt, hpre, hpost⟩
          · refine Or.inl ⟨rfl, ?_⟩
            intro f hf
            rcases List.mem_cons.mp hf with rfl | hf'
            · exact le_of_not_lt hlt
            · exact hall f hf'
          · refine Or.inr ⟨e :: pre, post, by rw [hsplit]; rfl, hgt, ?_, hpost⟩
            intro f hf
            rcases List.mem_cons.mp hf with rfl | hf'
            · exact lt_of_le_of_lt (le_of_not_lt hlt) hgt
            · exact hpre f hf'

lemma runMCTSTree_eq (orc : Oracle) (b : Board) (iters : Nat) :
    runMCTSTree orc b iters =
      (mctsLoop orc iters (mkNode orc 0 b Cell.o (-1, -1)).1
        (mkNode orc 0 b Cell.o (-1, -1)).2).1 := rfl

lemma rootInv_runMCTSTree (orc : Oracle) (b : Board) (iters : Nat)
    (hshuffle : ∀ (k : Nat) (l : List Pos), (orc.shuffle k l).Perm l) :
    RootInv b (runMCTSTree orc b iters) := by
  rw [runMCTSTree_eq]
  exact rootInv_mctsLoop orc b iters _ _ (rootInv_mkNode orc b 0 Cell.o _ hshuffle)

/-- C5: `runMCTS` returns the move of the root child with the highest
visit count, ties broken by encounter order (every child scanned before
the chosen one has a strictly smaller visit count), and returns the
sentinel (-1,-1) exactly when the root ends with no children — which
happens exactly when the iteration budget is zero or the input board is
already terminal. The oracle hypothesis says the constructor's
`random_shuffle` permutes the untried moves. -/
theorem mcts_final_selection (orc : Oracle) (b : Board) (iters : Nat)
    (hshuffle : ∀ (k : Nat) (l : List Pos), (orc.shuffle k l).Perm l) :
    ((runMCTSTree orc b iters).children = [] ↔
      (iters = 0 ∨ checkWinner b ≠ ' ')) ∧
    (runMCTS orc b iters = (-1, -1) ↔
      (runMCTSTree orc b iters).children = []) ∧
    ((runMCTSTree orc b iters).children ≠ [] →
      ∃ d pre post, (runMCTSTree orc b iters).children = pre ++ d :: post ∧
        runMCTS orc b iters = d.lastMove ∧
        (∀ e ∈ pre, e.visits < d.visits) ∧
        (∀ e ∈ (runMCTSTree orc b iters).children, e.visits ≤ d.visits)) := by
  have hrootInv := rootInv_runMCTSTree orc b iters hshuffle
  have hrootch : (mkNode orc 0 b Cell.o (-1, -1)).1.children = [] := by
    simp [mkNode, MTree.children]
  have hrootbs : (mkNode orc 0 b Cell.o (-1, -1)).1.boardState = b := rfl
  have hA : (runMCTSTree orc b iters).children = [] ↔
      (iters = 0 ∨ checkWinner b ≠ ' ') := by
    constructor
    · intro h
      by_contra hcon
      push_neg at hcon
      obtain ⟨hne, hw⟩ := hcon
      obtain ⟨n, rfl⟩ := Nat.exists_eq_succ_of_ne_zero hne
      have huroot : (mkNode orc 0 b Cell.o (-1, -1)).1.untried ≠ [] := by
        simp only [mkNode, MTree.untried]
        intro hnil
        have hlen := (hshuffle 0 (freeCells b)).length_eq
        rw [hnil] at hlen
        exact checkWinner_space_freeCount hw (by
          simpa [freeCount] using hlen.symm)
      have hexp := mctsIterate_children_expand orc
        (mkNode orc 0 b Cell.o (-1, -1)).2 (mkNode orc 0 b Cell.o (-1, -1)).1
        huroot (by rw [hrootbs]; exact hw)
      rw [hrootch] at hexp
      have hgrow := mctsLoop_children_grow orc n
        (mctsIterate orc (mkNode orc 0 b Cell.o (-1, -1)).2
          (mkNode orc 0 b Cell.o (-1, -1)).1).1
        (mctsIterate orc (mkNode orc 0 b Cell.o (-1, -1)).2
          (mkNode orc 0 b Cell.o (-1, -1)).1).2.2
      rw [hexp] at hgrow
      rw [runMCTSTree_eq, mctsLoop] at h
      rw [h] at hgrow
      simp at hgrow
    · rintro (rfl | hterm)
      · rw [runMCTSTree_eq, mctsLoop]
        exact hrootch
      · rw [runMCTSTree_eq, mctsLoop_children_terminal orc iters _ _
          (by rw [hrootbs]; exact hterm)]
        exact hrootch
  refine ⟨hA, ?_⟩
  by_cases hc : (runMCTSTree orc b iters).children = []
  · refine ⟨?_, ?_⟩
    · rw [hc]
      unfold runMCTS
      rw [hc]
      simp [bestScan]
    · intro hne
      exact absurd hc hne
  · obtain ⟨c, rest, hcr⟩ := List.exists_cons_of_ne_nil hc
    have hcmem : c ∈ (runMCTSTree orc b iters).children := by
      rw [hcr]; exact List.mem_cons_self c rest
    have hcvis : (0 : Int) ≤ c.visits := (hrootInv.2 c hcmem).2
    obtain ⟨d, hdeq, hdcase⟩ := bestScan_spec rest c
    have hrun : runMCTS orc b iters = d.lastMove := by
      unfold runMCTS
      rw [hcr, bestScan, if_pos (by omega : (-1 : Int) < c.visits), hdeq]
    have hsplit : ∃ pre post,
        (runMCTSTree orc b iters).children = pre ++ d :: post ∧
        (∀ e ∈ pre, e.visits < d.visits) ∧
        (∀ e ∈ (runMCTSTree orc b iters).children, e.visits ≤ d.visits) := by
      rcases hdcase with ⟨rfl, hall⟩ | ⟨pre, post, hps, hgt, hpre, hpost⟩
      · refine ⟨[], rest, by rw [hcr]; rfl, fun e he => absurd he
          (List.not_mem_nil e), ?_⟩
        intro e he
        rw [hcr] at he
        rcases List.mem_cons.mp he with rfl | he'
        · exact le_rfl
        · exact hall e he'
      · refine ⟨c :: pre, post, by rw [hcr, hps]; rfl, ?_, ?_⟩
        · intro e he
          rcases List.mem_cons.mp he with rfl | he'
          · exact hgt
          · exact hpre e he'
        · intro e he
          rw [hcr, hps] at he
          rcases List.mem_cons.mp he with rfl | he'
          · exact le_of_lt hgt
          · rcases List.mem_append.mp he' with h1 | h1
            · exact le_of_lt (hpre e h1)
            · rcases List.mem_cons.mp h1 with rfl | h2
              · exact le_rfl
              · exact hpost e h2
    obtain ⟨pre, post, hpp, hpre, hall⟩ := hsplit
    have hdmem : d ∈ (runMCTSTree orc b iters).children := by
      rw [hpp]
      exact List.mem_append.mpr (Or.inr (List.mem_cons_self d post))
    obtain ⟨⟨q, hqlm, -⟩, -⟩ := hrootInv.2 d hdmem
    refine ⟨⟨?_, fun h => absurd h hc⟩, fun _ => ⟨d, pre, post, hpp, hrun,
      hpre, hall⟩⟩
    intro hsent
    rw [hrun, hqlm] at hsent
    have h1 : ((q.1 : Int), (q.2 : Int)).1 = (-1 : Int) := by rw [hsent]
    simp only [] at h1
    have : (0 : Int) ≤ (q.1 : Int) := Int.natCast_nonneg _
    omega

/-- C10: whenever `runMCTS` returns a move other than the sentinel
(-1,-1), that move is an in-bounds coordinate (row and column in [0,3))
naming a cell that is empty in the input board — every root child is
created from a member of the root's untried-move list, which the
constructor fills with exactly the input board's empty cells — so
`mctsMove` never overwrites an occupied cell. -/
theorem mcts_move_targets_free_cell (orc : Oracle) (b : Board) (iters : Nat)
    (hshuffle : ∀ (k : Nat) (l : List Pos), (orc.shuffle k l).Perm l) :
    runMCTS orc b iters = (-1, -1) ∨
    ∃ q : Pos, runMCTS orc b iters = ((q.1 : Int), (q.2 : Int)) ∧
      b q.1 q.2 = Cell.e ∧
      0 ≤ ((q.1 : Int)) ∧ (q.1 : Int) < 3 ∧
      0 ≤ ((q.2 : Int)) ∧ (q.2 : Int) < 3 := by
  have hrootInv := rootInv_runMCTSTree orc b iters hshuffle
  by_cases hc : (runMCTSTree orc b iters).children = []
  · left
    unfold runMCTS
    rw [hc]
    simp [bestScan]
  · right
    obtain ⟨c, rest, hcr⟩ := List.exists_cons_of_ne_nil hc
    have hcmem : c ∈ (runMCTSTree orc b iters).children := by
      rw [hcr]; exact List.mem_cons_self c rest
    have hcvis : (0 : Int) ≤ c.visits := (hrootInv.2 c hcmem).2
    obtain ⟨d, hdeq, hdcase⟩ := bestScan_spec rest c
    have hrun : runMCTS orc b iters = d.lastMove := by
      unfold runMCTS
      rw [hcr, bestScan, if_pos (by omega : (-1 : Int) < c.visits), hdeq]
    have hdmem : d ∈ (runMCTSTree orc b iters).children := by
      rcases hdcase with ⟨rfl, -⟩ | ⟨pre, post, hps, -, -, -⟩
      · exact hcmem
      · rw [hcr, hps]
        exact List.mem_cons_of_mem c
          (List.mem_append.mpr (Or.inr (List.mem_cons_self d post)))
    obtain ⟨⟨q, hqlm, hqfree⟩, -⟩ := hrootInv.2 d hdmem
    refine ⟨q, by rw [hrun, hqlm], hqfree, Int.natCast_nonneg _, ?_,
      Int.natCast_nonneg _, ?_⟩
    · exact_mod_cast q.1.isLt
    · exact_mod_cast q.2.isLt

/-- Deterministic oracle instance used by the witnesses: the shuffle is
the identity permutation, rolls and selection always pick index 0. -/
def idOracle : Oracle :=
  ⟨fun _ l => l, fun _ => 0, fun _ _ => 0⟩

lemma idOracle_shuffle_perm :
    ∀ (k : Nat) (l : List Pos), (idOracle.shuffle k l).Perm l :=
  fun _ l => List.Perm.refl l

/-- Witness for C5 with the identity-shuffle oracle, the empty board and
an iteration budget of zero. -/
theorem mcts_final_selection_witness :
    ((runMCTSTree idOracle emptyBoard 0).children = [] ↔
      (0 = 0 ∨ checkWinner emptyBoard ≠ ' ')) ∧
    (runMCTS idOracle emptyBoard 0 = (-1, -1) ↔
      (runMCTSTree idOracle emptyBoard 0).children = []) ∧
    ((runMCTSTree idOracle emptyBoard 0).children ≠ [] →
      ∃ d pre post,
        (runMCTSTree idOracle emptyBoard 0).children = pre ++ d :: post ∧
        runMCTS idOracle emptyBoard 0 = d.lastMove ∧
        (∀ e ∈ pre, e.visits < d.visits) ∧
        (∀ e ∈ (runMCTSTree idOracle emptyBoard 0).children,
          e.visits ≤ d.visits)) :=
  mcts_final_selection idOracle emptyBoard 0 idOracle_shuffle_perm

/-- Witness for C10 with the identity-shuffle oracle. -/
theorem mcts_move_targets_free_cell_witness :
    runMCTS idOracle emptyBoard 1 = (-1, -1) ∨
    ∃ q : Pos, runMCTS idOracle emptyBoard 1 = ((q.1 : Int), (q.2 : Int)) ∧
      emptyBoard q.1 q.2 = Cell.e ∧
      0 ≤ ((q.1 : Int)) ∧ (q.1 : Int) < 3 ∧
      0 ≤ ((q.2 : Int)) ∧ (q.2 : Int) < 3 :=
  mcts_move_targets_free_cell idOracle emptyBoard 1 idOracle_shuffle_perm

lemma flipSide_ne_e (c : Cell) : flipSide c ≠ Cell.e := by
  unfold flipSide
  split_ifs <;> decide

lemma simulateGame_congr (orc : Oracle) :
    ∀ (f g t : Nat) (b : Board) (cur : Cell), cur ≠ Cell.e →
      freeCount b ≤ f → freeCount b ≤ g →
      simulateGame orc f t b cur = simulateGame orc g t b cur := by
  intro f
  induction f with
  | zero =>
      intro g t b cur hcur hf hg
      have hfs : freeCells b = [] := List.length_eq_zero.mp (by
        have : freeCount b = 0 := by omega
        simpa [freeCount] using this)
      rw [simulateGame, simulateGame]
      by_cases hw : checkWinner b = ' ' <;> simp [hw, hfs]
  | succ f ih =>
      intro g t b cur hcur hf hg
      rw [simulateGame, simulateGame]
      by_cases hw : checkWinner b = ' '
      · have hne := checkWinner_space_freeCount hw
        have hfs : freeCells b ≠ [] := fun h => hne (by simp [freeCount, h])
        obtain ⟨g', rfl⟩ : ∃ g', g = g' + 1 :=
          Nat.exists_eq_succ_of_ne_zero (by
            intro h
            rw [h] at hg
            exact hne (Nat.le_zero.mp hg))
        simp only [hw, ne_eq, not_true_eq_false, if_false, dif_neg hfs]
        set mv := (freeCells b).get
          ⟨orc.rand t % (freeCells b).length,
            Nat.mod_lt _ (List.length_pos.mpr hfs)⟩ with hmv
        have hmvfree : b mv.1 mv.2 = Cell.e := by
          have hmem : mv ∈ freeCells b := (freeCells b).get_mem _ _
          exact of_decide_eq_true (List.mem_filter.mp hmem).2
        have hdec := freeCount_setCell b mv cur hmvfree hcur
        exact ih g' (t + 1) (setCell b mv cur) (flipSide cur)
          (flipSide_ne_e cur) (by omega) (by omega)
      · simp [hw]

lemma abMaxLoop_congr (rec1 rec2 : Board → Bool → Int → Int → Int)
    (b : Board)
    (hrec : ∀ (p : Pos) (alpha beta : Int), b p.1 p.2 = Cell.e →
      rec1 (setCell b p Cell.o) false alpha beta =
        rec2 (setCell b p Cell.o) false alpha beta) :
    ∀ (l : List Pos) (bs alpha beta : Int),
      abMaxLoop rec1 b l bs alpha beta = abMaxLoop rec2 b l bs alpha beta := by
  intro l
  induction l with
  | nil => intro bs alpha beta; simp [abMaxLoop]
  | cons p rest ihl =>
      intro bs alpha beta
      by_cases hp : b p.1 p.2 = Cell.e
      · simp only [abMaxLoop, if_pos hp, hrec p alpha beta hp]
        by_cases hcut : beta ≤ max alpha (rec2 (setCell b p Cell.o) false
            alpha beta)
        · simp only [if_pos hcut]
        · simp only [if_neg hcut, ihl]
      · simp only [abMaxLoop, if_neg hp, ihl]

lemma abMinLoop_congr (rec1 rec2 : Board → Bool → Int → Int → Int)
    (b : Board)
    (hrec : ∀ (p : Pos) (alpha beta : Int), b p.1 p.2 = Cell.e →
      rec1 (setCell b p Cell.x) true alpha beta =
        rec2 (setCell b p Cell.x) true alpha beta) :
    ∀ (l : List Pos) (bs alpha beta : Int),
      abMinLoop rec1 b l bs alpha beta = abMinLoop rec2 b l bs alpha beta := by
  intro l
  induction l with
  | nil => intro bs alpha beta; simp [abMinLoop]
  | cons p rest ihl =>
      intro bs alpha beta
      by_cases hp : b p.1 p.2 = Cell.e
      · simp only [abMinLoop, if_pos hp, hrec p alpha beta hp]
        by_cases hcut : min beta (rec2 (setCell b p Cell.x) true alpha beta) ≤
            alpha
        · simp only [if_pos hcut]
        · simp only [if_neg hcut, ihl]
      · simp only [abMinLoop, if_neg hp, ihl]

lemma minimaxAB_congr :
    ∀ (f g : Nat) (b : Board) (m : Bool) (alpha beta : Int),
      freeCount b ≤ f → freeCount b ≤ g →
      minimaxAB f b m alpha beta = minimaxAB g b m alpha beta := by
  intro f
  induction f with
  | zero =>
      intro g b m alpha beta hf hg
      conv_lhs => rw [minimaxAB.eq_def]
      conv_rhs => rw [minimaxAB.eq_def]
      by_cases h1 : checkWinner b = COMPUTER
      · simp [h1]
      · by_cases h2 : checkWinner b = PLAYER
        · simp [h1, h2]
        · by_cases h3 : checkWinner b = 'D'
          · simp [h1, h2, h3]
          · have hsp := checkWinner_space_of_not_terminal h1 h2 h3
            have := checkWinner_space_freeCount hsp
            omega
  | succ f ih =>
      intro g b m alpha beta hf hg
      conv_lhs => rw [minimaxAB.eq_def]
      conv_rhs => rw [minimaxAB.eq_def]
      by_cases h1 : checkWinner b = COMPUTER
      · simp [h1]
      · by_cases h2 : checkWinner b = PLAYER
        · simp [h1, h2]
        · by_cases h3 : checkWinner b = 'D'
          · simp [h1, h2, h3]
          · have hsp := checkWinner_space_of_not_terminal h1 h2 h3
            have hne := checkWinner_space_freeCount hsp
            obtain ⟨g', rfl⟩ : ∃ g', g = g' + 1 :=
              Nat.exists_eq_succ_of_ne_zero (by
                intro h
                rw [h] at hg
                exact hne (Nat.le_zero.mp hg))
            simp only [h1, h2, h3, if_false]
            cases m
            · apply abMinLoop_congr
              intro p alpha' beta' hp
              have := freeCount_setCell b p Cell.x hp (by decide)
              exact ih g' _ _ _ _ (by omega) (by omega)
            · apply abMaxLoop_congr
              intro p alpha' beta' hp
              have := freeCount_setCell b p Cell.o hp (by decide)
              exact ih g' _ _ _ _ (by omega) (by omega)

/-- C9: every search call terminates, because the number of free cells
(at most 9) strictly decreases along every recursion or rollout step. In
the fueled embedding this is the statement that the minimax recursion
and the MCTS random rollout are independent of the fuel bound once it
reaches the free-cell count of the board — so the depth actually used is
at most `freeCount b ≤ 9` — while the `runMCTS` iteration loop and every
other loop are structural folds over fixed finite lists or a fixed
iteration budget. -/
theorem search_recursions_terminate :
    (∀ (orc : Oracle) (f g t : Nat) (b : Board) (cur : Cell),
      cur ≠ Cell.e → freeCount b ≤ f → freeCount b ≤ g →
      simulateGame orc f t b cur = simulateGame orc g t b cur) ∧
    (∀ (f g : Nat) (b : Board) (m : Bool) (alpha beta : Int),
      freeCount b ≤ f → freeCount b ≤ g →
      minimaxAB f b m alpha beta = minimaxAB g b m alpha beta) ∧
    (∀ b : Board, freeCount b ≤ 9) :=
  ⟨simulateGame_congr, minimaxAB_congr, freeCount_le_nine⟩

/-- Witness for C9: fuel 9 and fuel 10 agree on the empty board for both
the rollout and the minimax recursion. -/
theorem search_recursions_terminate_witness :
    simulateGame idOracle 9 0 emptyBoard Cell.o =
      simulateGame idOracle 10 0 emptyBoard Cell.o ∧
    minimaxAB 9 xRowBoard false intMin intMax =
      minimaxAB 10 xRowBoard false intMin intMax ∧
    freeCount emptyBoard ≤ 9 :=
  ⟨search_recursions_terminate.1 idOracle 9 10 0 emptyBoard Cell.o
      (by decide) (by decide) (by decide),
    search_recursions_terminate.2.1 9 10 xRowBoard false intMin intMax
      (by decide) (by decide),
    search_recursions_terminate.2.2 emptyBoard⟩
